import Mathlib

/-!
Shallow embedding of the `validate-data-tree` library (src/validate.js) and
proofs about its schema flattener, path codec, validator composer and
recursive tree validator.

Modelling conventions:
* JS `null` and `undefined` are collapsed into one `Val.vnull` value: the code
  only ever tests them with `value == null` / truthiness, where they agree.
* JS objects are association lists in insertion order (numeric-key reordering
  of JS property order is out of scope; the schemas at play use non-numeric
  keys).
* JS numbers are modelled as integers (`Int`); no claim exercises non-integer
  arithmetic.
* Function values can appear in schemas (ad-hoc predicates); a function that
  is merely passed around as a plain value (never called by the core) is the
  opaque token `Val.efn`.
-/

/-- A segment of an internal path: a field name, the `[]`/`$` array-wildcard
marker (an empty JS array in the source), or a concrete array index (a JS
number spliced in during array recursion). -/
inductive Seg where
  | field (s : String)
  | wild
  | index (i : Nat)
deriving DecidableEq, Repr

/-- A JS runtime value, as far as the validator can observe it. -/
inductive Val where
  | vnull
  | bool (b : Bool)
  | int (n : Int)
  | str (s : String)
  | obj (fields : List (String × Val))
  | arr (elems : List Val)
  | efn

/-- The `path` field of a `ValidationErrorItem`: the source stores either a
dotted string, a raw segment array, or `null` there. -/
inductive EPath where
  | s (str : String)
  | segs (l : List Seg)
  | null
deriving DecidableEq

/-- The observable fields of a `ValidationErrorItem` (src/validate.js lines
5-18); the always-`null` `type`/`origin`/`instance` fields are dropped. -/
structure ErrorItem where
  message : String
  path : EPath
  value : Val
  validatorKey : Option String
  validatorName : Option String
  validatorArgs : List Val

/-- `ValidationErrorItem` constructor normalisation: `path || null` turns the
falsy empty string into `null` (arrays, even empty, are truthy and kept). -/
def mkErrorItem (message : String) (path : EPath) (value : Val)
    (vkey vname : Option String) (vargs : List Val) : ErrorItem :=
  { message := message
    path := if path = EPath.s "" then EPath.null else path
    value := value
    validatorKey := vkey
    validatorName := vname
    validatorArgs := vargs }

/-! ## The JS string split/join used by the path codec -/

/-- Character-level worker for `key.split('.')`. -/
def splitDotAux : List Char → List Char → List String
  | [], acc => [String.mk acc.reverse]
  | c :: cs, acc =>
      if c = '.' then String.mk acc.reverse :: splitDotAux cs []
      else splitDotAux cs (c :: acc)

/-- JS `s.split('.')` (single-character separator, no regex). -/
def splitDot (s : String) : List String := splitDotAux s.data []

/-- JS `parts.join('.')`. -/
def joinDot : List String → String
  | [] => ""
  | [s] => s
  | s :: rest => s ++ "." ++ joinDot rest

theorem splitDotAux_ne_nil (l acc) : splitDotAux l acc ≠ [] := by
  induction l generalizing acc with
  | nil => simp [splitDotAux]
  | cons c cs ih =>
      simp only [splitDotAux]
      split
      · simp
      · exact ih _

theorem splitDot_ne_nil (s : String) : splitDot s ≠ [] :=
  splitDotAux_ne_nil _ _

theorem splitDotAux_dotfree (l acc : List Char) (hacc : '.' ∉ acc) :
    ∀ p ∈ splitDotAux l acc, '.' ∉ p.data := by
  induction l generalizing acc with
  | nil =>
      intro p hp
      simp only [splitDotAux, List.mem_singleton] at hp
      subst hp
      simpa using fun h => hacc h
  | cons c cs ih =>
      intro p hp
      simp only [splitDotAux] at hp
      split at hp
      · rcases List.mem_cons.mp hp with h | h
        · subst h; simpa using fun h => hacc h
        · exact ih [] (by simp) p h
      · rename_i hc
        exact ih (c :: acc) (by simp [hacc, Ne.symm hc, hc]) p hp

theorem splitDot_dotfree (s : String) : ∀ p ∈ splitDot s, '.' ∉ p.data :=
  splitDotAux_dotfree _ _ (by simp)

theorem splitDotAux_no_dot (l acc : List Char) (h : '.' ∉ l) :
    splitDotAux l acc = [String.mk (acc.reverse ++ l)] := by
  induction l generalizing acc with
  | nil => simp [splitDotAux]
  | cons c cs ih =>
      simp only [List.mem_cons, not_or] at h
      simp only [splitDotAux, if_neg (Ne.symm h.1)]
      rw [ih _ h.2]
      simp

theorem splitDotAux_append_dot (l rest : List Char) (acc : List Char)
    (h : '.' ∉ l) :
    splitDotAux (l ++ '.' :: rest) acc
      = String.mk (acc.reverse ++ l) :: splitDotAux rest [] := by
  induction l generalizing acc with
  | nil => simp [splitDotAux]
  | cons c cs ih =>
      simp only [List.mem_cons, not_or] at h
      rw [show (c :: cs) ++ '.' :: rest = c :: (cs ++ '.' :: rest) from rfl]
      simp only [splitDotAux, if_neg (Ne.symm h.1)]
      rw [ih _ h.2]
      simp

theorem splitDot_joinDot (parts : List String) (hne : parts ≠ [])
    (hdf : ∀ p ∈ parts, '.' ∉ p.data) :
    splitDot (joinDot parts) = parts := by
  induction parts with
  | nil => exact absurd rfl hne
  | cons p rest ih =>
      cases rest with
      | nil =>
          show splitDotAux p.data [] = [p]
          rw [splitDotAux_no_dot p.data [] (hdf p (by simp))]
          rfl
      | cons q rest' =>
          show splitDotAux (p ++ "." ++ joinDot (q :: rest')).data [] = _
          have hdata : (p ++ "." ++ joinDot (q :: rest')).data
              = p.data ++ '.' :: (joinDot (q :: rest')).data := by
            simp [String.data_append, List.append_assoc]
          rw [hdata, splitDotAux_append_dot _ _ _ (hdf p (by simp))]
          have := ih (by simp) (fun x hx => hdf x (List.mem_cons_of_mem _ hx))
          simp only [List.reverse_nil, List.nil_append]
          show p :: splitDot (joinDot (q :: rest')) = p :: q :: rest'
          rw [this]

/-! ## Path codec (`mapKeyToPath` / `mapPathToKey`, src/validate.js 85-102) -/

/-- Is this segment the array-wildcard marker (`Array.isArray(el) && el.length === 0`)? -/
def isWildSeg : Seg → Bool
  | Seg.wild => true
  | _ => false

/-- `mapKeyToPath`: split a dotted key on `.`; the parts `[]` and `$` become
wildcard markers, all others field names. -/
def mapKeyToPath (key : String) : List Seg :=
  (splitDot key).map (fun k => if k = "[]" ∨ k = "$" then Seg.wild else Seg.field k)

/-- How one segment renders in `mapPathToKey`, given the whole path's length:
a wildcard is `$` when it is the sole segment, else `[]`; a number renders in
decimal (JS string coercion inside `join`). -/
def renderSeg (plen : Nat) : Seg → String
  | Seg.wild => if plen = 1 then "$" else "[]"
  | Seg.field s => s
  | Seg.index i => toString i

/-- `mapPathToKey`: render each segment, drop rendered `[]` parts when
`removeArrays` is set, and join with dots. -/
def mapPathToKey (path : List Seg) (removeArrays : Bool) : String :=
  joinDot ((path.map (renderSeg path.length)).filter
    (fun p => !(removeArrays && p == "[]")))

/-- `s || '$'` on a JS string: the empty string is falsy. -/
def orDollar (s : String) : String := if s = "" then "$" else s

/-- Number of segments a key parses to; every key has at least one. -/
def keyLen (key : String) : Nat := (mapKeyToPath key).length

theorem one_le_keyLen (key : String) : 1 ≤ keyLen key := by
  have h := splitDot_ne_nil key
  unfold keyLen mapKeyToPath
  rw [List.length_map]
  exact Nat.one_le_iff_ne_zero.mpr (fun hl => h (List.length_eq_zero.mp hl))

/-- Well-formed internal-path segments: exactly those producible by
`mapKeyToPath` (dot-free field names distinct from the literal markers,
no concrete indices). -/
def SegOK : Seg → Prop
  | Seg.wild => True
  | Seg.field f => '.' ∉ f.data ∧ f ≠ "[]" ∧ f ≠ "$"
  | Seg.index _ => False

theorem mapKeyToPath_segOK (key : String) : ∀ s ∈ mapKeyToPath key, SegOK s := by
  intro s hs
  unfold mapKeyToPath at hs
  rcases List.mem_map.mp hs with ⟨p, hp, rfl⟩
  by_cases hm : p = "[]" ∨ p = "$"
  · simp only [if_pos hm]; trivial
  · simp only [if_neg hm]
    push_neg at hm
    exact ⟨splitDot_dotfree key p hp, hm.1, hm.2⟩

theorem renderSeg_dotfree (plen : Nat) (s : Seg) (h : SegOK s) :
    '.' ∉ (renderSeg plen s).data := by
  cases s with
  | wild =>
      simp only [renderSeg]
      split <;> decide
  | field f => exact h.1
  | index i => exact h.elim

/-- Round trip on well-formed nonempty paths (wildcards kept). -/
theorem mapKeyToPath_mapPathToKey (p : List Seg) (hne : p ≠ [])
    (hok : ∀ s ∈ p, SegOK s) :
    mapKeyToPath (mapPathToKey p false) = p := by
  unfold mapPathToKey
  have hfil : ((p.map (renderSeg p.length)).filter
      (fun q => !(false && q == "[]"))) = p.map (renderSeg p.length) := by
    simp
  rw [hfil]
  unfold mapKeyToPath
  rw [splitDot_joinDot _ (by simpa using hne)
    (by
      intro q hq
      rcases List.mem_map.mp hq with ⟨s, hs, rfl⟩
      exact renderSeg_dotfree _ _ (hok s hs))]
  rw [List.map_map]
  conv_rhs => rw [show p = p.map id from (List.map_id p).symm]
  apply List.map_congr_left
  intro s hs
  have h := hok s hs
  cases s with
  | wild =>
      simp only [Function.comp, renderSeg, id]
      split <;> simp
  | field f =>
      simp only [Function.comp, renderSeg, id]
      rw [if_neg (by simpa using ⟨h.2.1, h.2.2⟩)]
  | index i => exact h.elim

theorem joinDot_two_ne_empty (a b : String) (l : List String) :
    joinDot (a :: b :: l) ≠ "" := by
  intro h
  have : (joinDot (a :: b :: l)).data = [] := by rw [h]
  rw [show joinDot (a :: b :: l) = a ++ "." ++ joinDot (b :: l) from rfl] at this
  simp [String.data_append] at this

theorem keyLen_orDollar_le (p : List Seg) (hok : ∀ s ∈ p, SegOK s) :
    keyLen (orDollar (mapPathToKey p false)) ≤ max 1 p.length := by
  unfold orDollar
  by_cases h : mapPathToKey p false = ""
  · rw [if_pos h]
    have h1 : keyLen "$" = 1 := by decide
    rw [h1]
    exact Nat.le_max_left _ _
  · rw [if_neg h]
    have hne : p ≠ [] := by
      rintro rfl
      exact h rfl
    unfold keyLen
    rw [mapKeyToPath_mapPathToKey p hne hok]
    exact Nat.le_max_right _ _

/-! ## JS value helpers (truthiness, string and number coercion) -/

/-- JS truthiness of a value. -/
def truthy : Val → Bool
  | Val.vnull => false
  | Val.bool b => b
  | Val.int n => n != 0
  | Val.str s => s != ""
  | Val.obj _ => true
  | Val.arr _ => true
  | Val.efn => true

/-- JS `value == null` (matches both `null` and `undefined`). -/
def isNullV : Val → Bool
  | Val.vnull => true
  | _ => false

mutual
/-- JS `String(v)` coercion. -/
def jsString : Val → String
  | Val.vnull => "null"
  | Val.bool b => if b then "true" else "false"
  | Val.int n => toString n
  | Val.str s => s
  | Val.obj _ => "[object Object]"
  | Val.arr l => jsStringArr l
  | Val.efn => "function"
termination_by v => (sizeOf v, 0)

/-- `Array.prototype.toString`, i.e. `join(',')`. -/
def jsStringArr : List Val → String
  | [] => ""
  | [v] => jsStringElem v
  | v :: rest => jsStringElem v ++ "," ++ jsStringArr rest
termination_by l => (sizeOf l, 0)

/-- Inside `join`, `null`/`undefined` elements render as the empty string. -/
def jsStringElem : Val → String
  | Val.vnull => ""
  | v => jsString v
termination_by v => (sizeOf v, 1)
end

/-- Decimal digit list to a natural number. -/
def digitsToNat (l : List Char) : Nat :=
  l.foldl (fun acc c => acc * 10 + (c.toNat - 48)) 0

/-- JS `Number(s)` restricted to plain decimal integers; `""` coerces to `0`,
anything non-numeric is NaN (`none`). -/
def parseJsInt (s : String) : Option Int :=
  match s.data with
  | [] => some 0
  | '-' :: rest =>
      if rest ≠ [] ∧ rest.all Char.isDigit then some (-(Int.ofNat (digitsToNat rest)))
      else none
  | l => if l.all Char.isDigit then some (Int.ofNat (digitsToNat l)) else none

/-- JS numeric coercion of a value, `none` meaning NaN. `Val.vnull` follows the
`undefined` (NaN) branch; object/array coercions are simplified to NaN, which
no claim exercises. -/
def jsToNumber : Val → Option Int
  | Val.int n => some n
  | Val.bool b => some (if b then 1 else 0)
  | Val.vnull => none
  | Val.str s => parseJsInt s
  | Val.obj _ => none
  | Val.arr _ => none
  | Val.efn => none

/-- JS `n >= v` with `n` a length; comparisons against NaN are false. -/
def jsGE (n : Nat) (v : Val) : Bool :=
  match jsToNumber v with
  | some m => (n : Int) ≥ m
  | none => false

/-- JS `n <= v` with `n` a length; comparisons against NaN are false. -/
def jsLE (n : Nat) (v : Val) : Bool :=
  match jsToNumber v with
  | some m => (n : Int) ≤ m
  | none => false

mutual
/-- Structural value equality (used for `Immutable.is` inside `Set.subtract`). -/
def valEq : Val → Val → Bool
  | Val.vnull, Val.vnull => true
  | Val.bool a, Val.bool b => a == b
  | Val.int a, Val.int b => a == b
  | Val.str a, Val.str b => a == b
  | Val.obj a, Val.obj b => valFieldsEq a b
  | Val.arr a, Val.arr b => valListEq a b
  | Val.efn, Val.efn => true
  | _, _ => false

def valFieldsEq : List (String × Val) → List (String × Val) → Bool
  | [], [] => true
  | (k1, v1) :: r1, (k2, v2) :: r2 => k1 == k2 && valEq v1 v2 && valFieldsEq r1 r2
  | _, _ => false

def valListEq : List Val → List Val → Bool
  | [], [] => true
  | v1 :: r1, v2 :: r2 => valEq v1 v2 && valListEq r1 r2
  | _, _ => false
end

/-! ## Predicates and the extra validators (src/validate.js 28-43) -/

/-- What a predicate call produces when it returns: an ordinary value (whose
truthiness decides pass/fail) or a pre-built `ValidationErrorItem`. -/
inductive RetV where
  | val (v : Val)
  | errItem (e : ErrorItem)

/-- What a predicate call can throw. -/
inductive Exn where
  | item (e : ErrorItem)
  | other (msg : String)

/-- Result of a JS call: returns a `RetV` or throws an `Exn`. -/
abbrev PredOutcome := Except Exn RetV

/-- A registry predicate `(value, ...args) -> result`. -/
abbrev Predicate := Val → List Val → PredOutcome

/-- The external `validator` registry (string-format predicate library),
modelled as an abstract name lookup. -/
abbrev Registry := String → Option Predicate

/-- JS `Object.keys`: own enumerable keys; throws on `null`/`undefined`,
yields index strings for arrays and strings, `[]` for other primitives. -/
def jsObjectKeys : Val → Except Exn (List String)
  | Val.vnull => Except.error (Exn.other "TypeError: cannot convert null to object")
  | Val.obj fs => Except.ok (fs.map Prod.fst)
  | Val.arr l => Except.ok ((List.range l.length).map toString)
  | Val.str s => Except.ok ((List.range s.length).map toString)
  | _ => Except.ok []

/-- `allowedKeys(o, ...keys)`: every own key of `o` occurs among `keys`. -/
def allowedKeys (o : Val) (keys : List Val) : Except Exn Bool := do
  let ks ← jsObjectKeys o
  pure (ks.all (fun k => keys.any (fun a => valEq a (Val.str k))))

/-- `size(o, min, max)`: `Array.isArray(o) && o.length >= min && (!max || o.length <= max)`. -/
def size (o mi ma : Val) : Bool :=
  match o with
  | Val.arr l => jsGE l.length mi && (!truthy ma || jsLE l.length ma)
  | _ => false

/-- `isString(o)`: `typeof o === 'string'`. -/
def isString : Val → Bool
  | Val.str _ => true
  | _ => false

/-- `allowedKeys` packaged as a registry-shaped predicate. -/
def allowedKeysP : Predicate := fun o args =>
  (allowedKeys o args).map (fun b => RetV.val (Val.bool b))

/-- `size` packaged as a registry-shaped predicate (missing call arguments are
`undefined`). -/
def sizeP : Predicate := fun o args =>
  pure (RetV.val (Val.bool (size o (args.getD 0 Val.vnull) (args.getD 1 Val.vnull))))

/-- `isString` packaged as a registry-shaped predicate. -/
def isStringP : Predicate := fun o _ =>
  pure (RetV.val (Val.bool (isString o)))

/-- The `extraValidators` table. -/
def extraLookup : String → Option Predicate
  | "allowedKeys" => some allowedKeysP
  | "size" => some sizeP
  | "isString" => some isStringP
  | _ => none

/-! ## Schema declarations (the `validate` DSL of §3) -/

/-- The value attached to a validator name inside a rule's `validate` mapping:
the literal `true`, an argument array, a single literal argument, or an ad-hoc
predicate function. -/
inductive ArgSpec where
  | litTrue
  | arrv (l : List Val)
  | single (v : Val)
  | fn (f : Val → PredOutcome)

/-- A Field Rule: `type` tag, `allowNull`, `validate` mapping (presence
matters, hence `Option`), nested `schema`. A missing nested schema and an
empty one are observationally identical in the source (recursing into `{}`
adds nothing), so both are the empty list. -/
inductive FieldRule where
  | mk (ftype : Option String) (allowNull : Bool)
       (validate : Option (List (String × ArgSpec)))
       (schema : List (String × FieldRule))

def FieldRule.ftype : FieldRule → Option String
  | FieldRule.mk t _ _ _ => t

def FieldRule.allowNull : FieldRule → Bool
  | FieldRule.mk _ a _ _ => a

def FieldRule.validate : FieldRule → Option (List (String × ArgSpec))
  | FieldRule.mk _ _ v _ => v

def FieldRule.schema : FieldRule → List (String × FieldRule)
  | FieldRule.mk _ _ _ s => s

/-! ## Validator composer (src/validate.js 45-83) -/

/-- What one composed-chain step yields: a non-error (truthy or not, the
callers only test `instanceof ValidationErrorItem`) or an error item. -/
inductive VRes where
  | pass
  | fail (e : ErrorItem)

/-- A validator function in the composed chain. -/
abbrev VFun := Val → Except Exn VRes

/-- The `validatorArgs` local of `schemaToValidators`: no extra call
arguments for custom predicates and for the literal `true`, a spread for an
array literal, a single argument otherwise. -/
def validatorArgsOf (reg : Registry) (k : String) (a : ArgSpec) : List Val :=
  if (reg k).isNone && (extraLookup k).isNone then []
  else match a with
    | ArgSpec.litTrue => []
    | ArgSpec.arrv l => l
    | ArgSpec.single v => [v]
    | ArgSpec.fn _ => [Val.efn]

/-- The `sanitize` local of `schemaToValidators`: predicates resolved from the
string-oriented registry receive `(o && String(o)) || ''`, others the raw
value. -/
def sanitizeVal (reg : Registry) (k : String) (o : Val) : Val :=
  if (reg k).isSome then Val.str (if truthy o then jsString o else "") else o

/-- The `predicate` local of `schemaToValidators` applied to its arguments:
registry first, then the extra validators, then the ad-hoc function; a
non-function custom spec is a `TypeError`. -/
def resolvePredicate (reg : Registry) (k : String) (a : ArgSpec)
    (sv : Val) (args : List Val) : PredOutcome :=
  match reg k with
  | some p => p sv args
  | none =>
    match extraLookup k with
    | some p => p sv args
    | none =>
      match a with
      | ArgSpec.fn f => f sv
      | _ => Except.error (Exn.other "TypeError: predicate is not a function")

/-- Normalisation of one predicate call's return value (`predicate(...) ||
new ValidationErrorItem(...)`): a returned error item fails as-is, a truthy
value passes, a falsy value fails with a freshly built item. -/
def valStep (field k : String) (sv : Val) (args : List Val) : RetV → Except Exn VRes
  | RetV.errItem e => pure (VRes.fail e)
  | RetV.val v =>
      if truthy v then pure VRes.pass
      else pure (VRes.fail (mkErrorItem
        ("Validation " ++ k ++ " on " ++ field ++ " failed")
        (EPath.s field) sv (some k) (some k) args))

/-- Build the validator for one `(name, argSpec)` entry of a `validate`
mapping (the body of the `map` in `schemaToValidators`). -/
def mkOneValidator (reg : Registry) (field : String) (k : String) (a : ArgSpec) : VFun :=
  fun o => do
    let r ← resolvePredicate reg k a (sanitizeVal reg k o) (validatorArgsOf reg k a)
    valStep field k (sanitizeVal reg k o) (validatorArgsOf reg k a) r

/-- `schemaToValidators(field, schema)`: one validator per declared entry, in
declaration order. -/
def schemaToValidators (reg : Registry) (field : String)
    (vmap : List (String × ArgSpec)) : List VFun :=
  vmap.map (fun e => mkOneValidator reg field e.1 e.2)

/-- `composeValidators`: fold the list pairwise; each merged step returns the
first step's result when it is an error item, otherwise runs the second. -/
def composeValidators : List VFun → VFun
  | [] => fun _ => pure VRes.pass
  | [v] => v
  | v1 :: v2 :: vs =>
      composeValidators
        ((fun o => do
          match ← v1 o with
          | VRes.fail e => pure (VRes.fail e)
          | VRes.pass => v2 o) :: vs)
termination_by l => l.length

/-! ## `getIn` (immutable.js) and the schema flattener (src/validate.js 104-125) -/

/-- Parse a canonical array-index string (`"0"`, `"17"`, no leading zeros). -/
def parseIndex (s : String) : Option Nat :=
  match s.data with
  | [] => none
  | ['0'] => some 0
  | c :: _ =>
      if c = '0' then none
      else if s.data.all Char.isDigit then some (digitsToNat s.data) else none

/-- One property read, as immutable's functional `get` on plain data: objects
by own key (first binding), arrays by canonical index string or number, all
other hosts yield `undefined`. A wildcard segment coerces to the key `""`. -/
def getProp (v : Val) (s : Seg) : Val :=
  match v, s with
  | Val.obj fs, Seg.field k => ((fs.find? (fun e => e.1 == k)).map Prod.snd).getD Val.vnull
  | Val.obj fs, Seg.index i =>
      ((fs.find? (fun e => e.1 == toString i)).map Prod.snd).getD Val.vnull
  | Val.obj fs, Seg.wild => ((fs.find? (fun e => e.1 == "")).map Prod.snd).getD Val.vnull
  | Val.arr l, Seg.field k =>
      match parseIndex k with
      | some i => l.getD i Val.vnull
      | none => Val.vnull
  | Val.arr l, Seg.index i => l.getD i Val.vnull
  | _, _ => Val.vnull

/-- immutable `getIn(obj, path)`: iterate `getProp`, `undefined` on any miss. -/
def getIn (v : Val) (path : List Seg) : Val :=
  path.foldl getProp v

/-- JS `flat[key] = v`: replace in place if the key exists, else append. -/
def objSet (m : List (String × FieldRule)) (k : String) (v : FieldRule) :
    List (String × FieldRule) :=
  if m.any (fun e => e.1 == k) then m.map (fun e => if e.1 == k then (k, v) else e)
  else m ++ [(k, v)]

/-- JS `{...a, ...b}`: `a`'s entries in order with `b` overriding shared keys
in place, then `b`'s new keys appended in `b`'s order. -/
def objMerge (a b : List (String × FieldRule)) : List (String × FieldRule) :=
  b.foldl (fun acc e => objSet acc e.1 e.2) a

/-- `flattenSchema` with an explicit accumulator for the mutated `flat`
object: children of an `object`/`array` rule are merged first, then the
rule's own entry is recorded when it has a `validate` mapping. -/
def flattenAux : List (String × FieldRule) → List Seg → List (String × FieldRule) →
    List (String × FieldRule)
  | [], _, flat => flat
  | (field, r) :: rest, pre, flat =>
      let path := pre ++ (if field = "$" ∧ pre.length ≠ 0 then [] else [Seg.field field])
      let flat1 :=
        if (r.ftype = some "object" ∨ r.ftype = some "array") ∧ r.schema.isEmpty = false then
          objMerge flat (flattenAux r.schema
            (path ++ (if r.ftype = some "object" then [] else [Seg.wild])) [])
        else flat
      let flat2 :=
        match r.validate with
        | some _ => objSet flat1 (mapPathToKey path false) r
        | none => flat1
      flattenAux rest pre flat2
termination_by l _ _ => sizeOf l
decreasing_by
  all_goals
    have hr : sizeOf r.schema < sizeOf r := by
      cases r with
      | mk t a v s =>
          simp only [FieldRule.schema, FieldRule.mk.sizeOf_spec]
          omega
  all_goals
    simp only [List.cons.sizeOf_spec, Prod.mk.sizeOf_spec]
    omega

/-- `flattenSchema(schema, prefix = [])`. -/
def flattenSchema (schema : List (String × FieldRule)) (pre : List Seg := []) :
    List (String × FieldRule) :=
  flattenAux schema pre []

/-! ## Tree validator (`validateFn`, src/validate.js 135-198) -/

/-- The partition test: the entry must be deferred to array recursion when its
path contains a wildcard and has more than one segment. -/
def isRecurKey (key : String) : Bool :=
  let path := mapKeyToPath key
  path.any isWildSeg && decide (path.length > 1)

/-- JS `String(x)` for one path element inside a template literal: an empty
array (wildcard) renders as the empty string. -/
def segToString : Seg → String
  | Seg.field f => f
  | Seg.wild => ""
  | Seg.index i => toString i

/-- `Array.prototype.join(',')` for strings. -/
def joinComma : List String → String
  | [] => ""
  | [s] => s
  | s :: rest => s ++ "," ++ joinComma rest

/-- The required-field error: note the raw segment array is stored as the
path and interpolated (comma-joined) into the message. -/
def requiredError (path : List Seg) (value : Val) : ErrorItem :=
  mkErrorItem ("Validation required on " ++ joinComma (path.map segToString) ++ " failed")
    (EPath.segs path) value (some "required") (some "required") []

/-- Value resolution for a direct entry: a wildcard in head position selects
the current object itself, otherwise `getIn`. -/
def resolveDirect (obj : Val) (path : List Seg) : Val :=
  match path with
  | Seg.wild :: _ => obj
  | _ => getIn obj path

/-- The body of the direct-entry `forEach` for one flat-table entry: the
required / allowNull short-circuit / composed-validator decision. -/
def directEntryErrs (reg : Registry) (obj : Val) (pre : List Seg)
    (e : String × FieldRule) : Except Exn (List ErrorItem) := do
  let path := mapKeyToPath e.1
  let fs := e.2
  let fieldvalidator : VFun :=
    match fs.validate with
    | some vmap =>
        composeValidators (schemaToValidators reg (mapPathToKey (pre ++ path) true) vmap)
    | none => fun _ => pure VRes.pass
  let value := resolveDirect obj path
  if fs.allowNull = false ∧ isNullV value = true then
    pure [requiredError path value]
  else if fs.allowNull = true ∧ isNullV value = true then
    pure []
  else
    match ← fieldvalidator value with
    | VRes.fail err => pure [err]
    | VRes.pass => pure []

/-- Sequential processing of the direct entries, accumulating errors. -/
def directFold (reg : Registry) (obj : Val) (pre : List Seg) :
    List (String × FieldRule) → List ErrorItem → Except Exn (List ErrorItem)
  | [], errs => pure errs
  | e :: rest, errs => do
      let es ← directEntryErrs reg obj pre e
      directFold reg obj pre rest (errs ++ es)

/-- What `if (arr && arr.length) arr.forEach(...)` does with the resolved
target: iterate a non-empty array, silently skip anything whose `length` is
falsy, and hit a `TypeError` on a truthy-`length` non-array (e.g. a non-empty
string). -/
inductive RecurAction where
  | iterate (elems : List Val)
  | skip
  | typeError

def recurTarget : Val → RecurAction
  | Val.arr l => if l.isEmpty then RecurAction.skip else RecurAction.iterate l
  | Val.str s => if s.isEmpty then RecurAction.skip else RecurAction.typeError
  | Val.obj fs =>
      match (fs.find? (fun e => e.1 == "length")).map Prod.snd with
      | some v => if truthy v then RecurAction.typeError else RecurAction.skip
      | none => RecurAction.skip
  | _ => RecurAction.skip

/-- Total number of key segments in a flat schema: the recursion measure. -/
def schemaMeasure (schema : List (String × FieldRule)) : Nat :=
  (schema.map (fun e => keyLen e.1)).sum

theorem keyLen_le_schemaMeasure (e : String × FieldRule)
    (l : List (String × FieldRule)) (he : e ∈ l) :
    keyLen e.1 ≤ schemaMeasure l := by
  induction l with
  | nil => cases he
  | cons x rest ih =>
      rcases List.mem_cons.mp he with h | h
      · subst h
        simp only [schemaMeasure, List.map_cons, List.sum_cons]
        exact Nat.le_add_right _ _
      · calc keyLen e.1 ≤ schemaMeasure rest := ih h
          _ ≤ schemaMeasure (x :: rest) := by
            simp only [schemaMeasure, List.map_cons, List.sum_cons]
            exact Nat.le_add_left _ _

theorem schemaMeasure_filter_le (p : String × FieldRule → Bool)
    (l : List (String × FieldRule)) :
    schemaMeasure (l.filter p) ≤ schemaMeasure l := by
  induction l with
  | nil => simp [schemaMeasure]
  | cons x rest ih =>
      simp only [List.filter_cons]
      split
      · simp only [schemaMeasure, List.map_cons, List.sum_cons]
        exact Nat.add_le_add_left ih _
      · calc schemaMeasure (rest.filter p) ≤ schemaMeasure rest := ih
          _ ≤ schemaMeasure (x :: rest) := by
            simp only [schemaMeasure, List.map_cons, List.sum_cons]
            exact Nat.le_add_left _ _

/-- The key built for the per-element recursive call is strictly shorter than
the entry's own key. -/
theorem recur_newKey_lt (k : String) (hk : isRecurKey k = true) :
    keyLen (orDollar (mapPathToKey
      ((mapKeyToPath k).drop ((mapKeyToPath k).findIdx isWildSeg + 1)) false)) < keyLen k := by
  have hok : ∀ s ∈ (mapKeyToPath k).drop ((mapKeyToPath k).findIdx isWildSeg + 1), SegOK s :=
    fun s hs => mapKeyToPath_segOK k s (List.mem_of_mem_drop hs)
  have hle := keyLen_orDollar_le _ hok
  unfold isRecurKey at hk
  simp only [Bool.and_eq_true, decide_eq_true_eq] at hk
  have hidx : (mapKeyToPath k).findIdx isWildSeg < (mapKeyToPath k).length := by
    rcases List.any_eq_true.mp hk.1 with ⟨s, hs, hws⟩
    exact List.findIdx_lt_length_of_exists ⟨s, hs, hws⟩
  have hdrop : ((mapKeyToPath k).drop ((mapKeyToPath k).findIdx isWildSeg + 1)).length
      = (mapKeyToPath k).length - ((mapKeyToPath k).findIdx isWildSeg + 1) := by
    simp [List.length_drop]
  have hlen : 2 ≤ (mapKeyToPath k).length := hk.2
  have : keyLen k = (mapKeyToPath k).length := rfl
  omega

mutual
/-- `validateFn(obj, schema, prefix = [])`: partition the flat table into
direct entries and array-recursion entries, process the direct ones in order,
then the recursion ones in order, accumulating errors; a predicate throw
propagates. -/
def validateFn (reg : Registry) (obj : Val) (schema : List (String × FieldRule))
    (pre : List Seg) : Except Exn (List ErrorItem) := do
  let fieldsSchemas := schema.filter (fun e => !isRecurKey e.1)
  let toRecur := schema.filter (fun e => isRecurKey e.1)
  let errs ← directFold reg obj pre fieldsSchemas []
  recurFold reg obj pre toRecur
    (fun e he => by
      have := List.mem_filter.mp he
      simpa using this.2)
    errs
termination_by (schemaMeasure schema, 2, 0)
decreasing_by
  have h := schemaMeasure_filter_le (fun e => isRecurKey e.1) schema
  rcases Nat.lt_or_ge (schemaMeasure (schema.filter (fun e => isRecurKey e.1)))
      (schemaMeasure schema) with hlt | hge
  · exact Prod.Lex.left _ _ hlt
  · have heq : schemaMeasure (schema.filter (fun e => isRecurKey e.1))
        = schemaMeasure schema := Nat.le_antisymm h hge
    rw [heq]
    exact Prod.Lex.right _ (Prod.Lex.left _ _ (by omega))

/-- One deferred (array-recursion) entry: split its path at the first
wildcard, resolve the target before the wildcard, and on a non-empty array
validate every element against the singleton schema keyed by the remaining
sub-path (the body of the `fieldSchemasToRecur.forEach`). -/
def recurStep (reg : Registry) (obj : Val) (pre : List Seg)
    (e : String × FieldRule) (errs : List ErrorItem)
    (hrec : isRecurKey e.1 = true) : Except Exn (List ErrorItem) :=
  match recurTarget (getIn obj
      ((mapKeyToPath e.1).take ((mapKeyToPath e.1).findIdx isWildSeg))) with
  | RecurAction.iterate elems =>
      elemsFold reg e.2
        (orDollar (mapPathToKey
          ((mapKeyToPath e.1).drop ((mapKeyToPath e.1).findIdx isWildSeg + 1)) false))
        (pre ++ (mapKeyToPath e.1).take ((mapKeyToPath e.1).findIdx isWildSeg))
        elems 0 errs
  | RecurAction.skip => pure errs
  | RecurAction.typeError =>
      Except.error (Exn.other "TypeError: arr.forEach is not a function")
termination_by (keyLen e.1, 1, 0)
decreasing_by
  have hlt := recur_newKey_lt e.1 hrec
  rcases Nat.lt_or_ge (keyLen (orDollar (mapPathToKey
      ((mapKeyToPath e.1).drop ((mapKeyToPath e.1).findIdx isWildSeg + 1)) false)) + 1)
      (keyLen e.1) with h | h
  · exact Prod.Lex.left _ _ h
  · have heq : keyLen (orDollar (mapPathToKey
        ((mapKeyToPath e.1).drop ((mapKeyToPath e.1).findIdx isWildSeg + 1)) false)) + 1
        = keyLen e.1 := by omega
    rw [heq]
    exact Prod.Lex.right _ (Prod.Lex.left _ _ (by omega))

/-- The `forEach` over deferred (array-recursion) entries, in order. -/
def recurFold (reg : Registry) (obj : Val) (pre : List Seg)
    (l : List (String × FieldRule)) (hl : ∀ e ∈ l, isRecurKey e.1 = true)
    (errs : List ErrorItem) : Except Exn (List ErrorItem) :=
  match l, hl with
  | [], _ => pure errs
  | e :: rest, hl => do
      let errs2 ← recurStep reg obj pre e errs (hl e (List.mem_cons_self e rest))
      recurFold reg obj pre rest (fun x hx => hl x (List.mem_cons_of_mem _ hx)) errs2
termination_by (schemaMeasure l, 1, 1)
decreasing_by
  · have hmem : keyLen e.1 ≤ schemaMeasure (e :: rest) :=
      keyLen_le_schemaMeasure e (e :: rest) (List.mem_cons_self e rest)
    rcases Nat.lt_or_ge (keyLen e.1) (schemaMeasure (e :: rest)) with h | h
    · exact Prod.Lex.left _ _ h
    · have heq : keyLen e.1 = schemaMeasure (e :: rest) := by omega
      rw [heq]
      exact Prod.Lex.right _ (Prod.Lex.right _ (by omega))
  · have h1 := one_le_keyLen e.1
    apply Prod.Lex.left
    simp only [schemaMeasure, List.map_cons, List.sum_cons]
    omega

/-- The `forEach` over a resolved array's elements: one recursive
`validateFn` call per element, on a singleton schema. -/
def elemsFold (reg : Registry) (fs : FieldRule) (newKey : String)
    (basePre : List Seg) (elems : List Val) (i : Nat) (errs : List ErrorItem) :
    Except Exn (List ErrorItem) :=
  match elems with
  | [] => pure errs
  | el :: rest => do
      let arrErrs ← validateFn reg el [(newKey, fs)] (basePre ++ [Seg.index i])
      elemsFold reg fs newKey basePre rest (i + 1) (errs ++ arrErrs)
termination_by (keyLen newKey + 1, 0, elems.length)
decreasing_by
  · apply Prod.Lex.left
    simp only [schemaMeasure, List.map_cons, List.map_nil, List.sum_cons, List.sum_nil]
    omega
  · exact Prod.Lex.right _ (Prod.Lex.right _ (by simp))
end

/-! ## Public entry point (`validate`, src/validate.js 205-214) -/

/-- The `schema` argument as received by `validate`: `null`/`undefined`
(falsy, fails the assertion), a non-object primitive (fails the assertion),
or an actual schema object. -/
inductive SchemaV where
  | vnull
  | prim (v : Val)
  | decl (s : List (String × FieldRule))

/-- Everything a call to `validate` can observably do. -/
inductive ValidateOutcome where
  | ok
  | validationErrors (errors : List ErrorItem)
  | assertionError (msg : String)
  | thrownItem (e : ErrorItem)
  | otherError (msg : String)

/-- `obj && typeof obj === 'object'`: a truthy object-or-array. -/
def isContainer : Val → Bool
  | Val.obj _ => true
  | Val.arr _ => true
  | _ => false

/-- The public `validate(obj, schema, prefix = [])`: assert the
preconditions, flatten, walk, and throw `ValidationErrors` on a non-empty
error list. -/
def validate (reg : Registry) (obj : Val) (schema : SchemaV)
    (pre : List Seg := []) : ValidateOutcome :=
  if isContainer obj = false then
    ValidateOutcome.assertionError "object to validate should be an object or an array"
  else
    match schema with
    | SchemaV.decl s =>
        match validateFn reg obj (flattenSchema s) pre with
        | Except.ok [] => ValidateOutcome.ok
        | Except.ok errs => ValidateOutcome.validationErrors errs
        | Except.error (Exn.item e) => ValidateOutcome.thrownItem e
        | Except.error (Exn.other m) => ValidateOutcome.otherError m
    | _ => ValidateOutcome.assertionError "schema should be valid"

/-! ## Spec-side decomposition of the walk (used for the ordering claims) -/

/-- The direct-entry partition of a flat table, in iteration order. -/
def directPart (schema : List (String × FieldRule)) : List (String × FieldRule) :=
  schema.filter (fun e => !isRecurKey e.1)

/-- The array-recursion partition of a flat table, in iteration order. -/
def recurPart (schema : List (String × FieldRule)) : List (String × FieldRule) :=
  schema.filter (fun e => isRecurKey e.1)

/-- Effectful map over a list in the `Except` monad, stopping at the first
thrown exception. -/
def exceptMapList {a b : Type} (f : a → Except Exn b) : List a → Except Exn (List b)
  | [] => pure []
  | x :: rest => do
      let y ← f x
      let ys ← exceptMapList f rest
      pure (y :: ys)

/-- The errors contributed by one array-recursion entry, written as a
flatten of per-element error lists in ascending index order. -/
def recurEntryErrs (reg : Registry) (obj : Val) (pre : List Seg)
    (e : String × FieldRule) : Except Exn (List ErrorItem) := do
  let path := mapKeyToPath e.1
  let arrIndex := path.findIdx isWildSeg
  let pathBefore := path.take arrIndex
  let pathAfter := path.drop (arrIndex + 1)
  let newKey := orDollar (mapPathToKey pathAfter false)
  match recurTarget (getIn obj pathBefore) with
  | RecurAction.iterate elems =>
      (exceptMapList (fun p =>
        validateFn reg p.2 [(newKey, e.2)] (pre ++ pathBefore ++ [Seg.index p.1]))
        elems.enum).map List.flatten
  | RecurAction.skip => pure []
  | RecurAction.typeError =>
      Except.error (Exn.other "TypeError: arr.forEach is not a function")

theorem directFold_eq (reg : Registry) (obj : Val) (pre : List Seg)
    (l : List (String × FieldRule)) (errs : List ErrorItem) :
    directFold reg obj pre l errs
      = (exceptMapList (directEntryErrs reg obj pre) l).map
          (fun parts => errs ++ parts.flatten) := by
  induction l generalizing errs with
  | nil => simp [directFold, exceptMapList, Except.map, pure, Except.pure]
  | cons e rest ih =>
      simp only [directFold, exceptMapList]
      cases h : directEntryErrs reg obj pre e with
      | error ex => rfl
      | ok es =>
          show directFold reg obj pre rest (errs ++ es) = _
          rw [ih (errs ++ es)]
          cases hm : exceptMapList (directEntryErrs reg obj pre) rest with
          | error ex2 => rfl
          | ok parts =>
              show Except.ok ((errs ++ es) ++ parts.flatten)
                = Except.ok (errs ++ List.flatten (es :: parts))
              rw [List.flatten_cons, List.append_assoc]

theorem elemsFold_eq (reg : Registry) (fs : FieldRule) (newKey : String)
    (basePre : List Seg) :
    ∀ (elems : List Val) (i : Nat) (errs : List ErrorItem),
    elemsFold reg fs newKey basePre elems i errs
      = (exceptMapList (fun p =>
          validateFn reg p.2 [(newKey, fs)] (basePre ++ [Seg.index p.1]))
          (elems.enumFrom i)).map (fun parts => errs ++ parts.flatten) := by
  intro elems
  induction elems with
  | nil =>
      intro i errs
      rw [elemsFold.eq_def]
      show Except.ok errs = Except.ok (errs ++ [])
      rw [List.append_nil]
  | cons el rest ih =>
      intro i errs
      rw [elemsFold.eq_def]
      show (do
          let arrErrs ← validateFn reg el [(newKey, fs)] (basePre ++ [Seg.index i])
          elemsFold reg fs newKey basePre rest (i + 1) (errs ++ arrErrs)) = _
      rw [show exceptMapList (fun p =>
            validateFn reg p.2 [(newKey, fs)] (basePre ++ [Seg.index p.1]))
            (List.enumFrom i (el :: rest))
          = (do
            let y ← validateFn reg el [(newKey, fs)] (basePre ++ [Seg.index i])
            let ys ← exceptMapList (fun p =>
              validateFn reg p.2 [(newKey, fs)] (basePre ++ [Seg.index p.1]))
              (List.enumFrom (i + 1) rest)
            pure (y :: ys)) from rfl]
      cases h : validateFn reg el [(newKey, fs)] (basePre ++ [Seg.index i]) with
      | error ex => rfl
      | ok arrErrs =>
          show elemsFold reg fs newKey basePre rest (i + 1) (errs ++ arrErrs) = _
          rw [ih (i + 1) (errs ++ arrErrs)]
          cases hm : exceptMapList (fun p =>
              validateFn reg p.2 [(newKey, fs)] (basePre ++ [Seg.index p.1]))
              (List.enumFrom (i + 1) rest) with
          | error ex2 => rfl
          | ok parts =>
              show Except.ok ((errs ++ arrErrs) ++ parts.flatten)
                = Except.ok (errs ++ List.flatten (arrErrs :: parts))
              rw [List.flatten_cons, List.append_assoc]


theorem recurStep_eq (reg : Registry) (obj : Val) (pre : List Seg)
    (e : String × FieldRule) (errs : List ErrorItem) (hrec : isRecurKey e.1 = true) :
    recurStep reg obj pre e errs hrec
      = (recurEntryErrs reg obj pre e).map (fun es => errs ++ es) := by
  rw [recurStep.eq_def]
  rw [show recurEntryErrs reg obj pre e
      = (match recurTarget (getIn obj
          ((mapKeyToPath e.1).take ((mapKeyToPath e.1).findIdx isWildSeg))) with
        | RecurAction.iterate elems =>
            (exceptMapList (fun p =>
              validateFn reg p.2
                [(orDollar (mapPathToKey
                  ((mapKeyToPath e.1).drop ((mapKeyToPath e.1).findIdx isWildSeg + 1))
                  false), e.2)]
                (pre ++ (mapKeyToPath e.1).take ((mapKeyToPath e.1).findIdx isWildSeg)
                  ++ [Seg.index p.1])) elems.enum).map List.flatten
        | RecurAction.skip => pure []
        | RecurAction.typeError =>
            Except.error (Exn.other "TypeError: arr.forEach is not a function"))
      from rfl]
  cases ht : recurTarget (getIn obj
      ((mapKeyToPath e.1).take ((mapKeyToPath e.1).findIdx isWildSeg))) with
  | iterate elems =>
      show elemsFold reg e.2
          (orDollar (mapPathToKey
            ((mapKeyToPath e.1).drop ((mapKeyToPath e.1).findIdx isWildSeg + 1)) false))
          (pre ++ (mapKeyToPath e.1).take ((mapKeyToPath e.1).findIdx isWildSeg))
          elems 0 errs
        = Except.map (fun es => errs ++ es) (Except.map List.flatten
            (exceptMapList (fun p =>
              validateFn reg p.2
                [(orDollar (mapPathToKey
                  ((mapKeyToPath e.1).drop ((mapKeyToPath e.1).findIdx isWildSeg + 1))
                  false), e.2)]
                (pre ++ (mapKeyToPath e.1).take ((mapKeyToPath e.1).findIdx isWildSeg)
                  ++ [Seg.index p.1])) (List.enumFrom 0 elems)))
      rw [elemsFold_eq]
      cases hm : exceptMapList (fun p =>
          validateFn reg p.2
            [(orDollar (mapPathToKey
              ((mapKeyToPath e.1).drop ((mapKeyToPath e.1).findIdx isWildSeg + 1))
              false), e.2)]
            (pre ++ (mapKeyToPath e.1).take ((mapKeyToPath e.1).findIdx isWildSeg)
              ++ [Seg.index p.1])) (List.enumFrom 0 elems) with
      | error ex => rfl
      | ok parts => rfl
  | skip =>
      show Except.ok errs = Except.ok (errs ++ [])
      rw [List.append_nil]
  | typeError => rfl

theorem recurFold_eq (reg : Registry) (obj : Val) (pre : List Seg) :
    ∀ (l : List (String × FieldRule)) (hl : ∀ e ∈ l, isRecurKey e.1 = true)
      (errs : List ErrorItem),
    recurFold reg obj pre l hl errs
      = (exceptMapList (recurEntryErrs reg obj pre) l).map
          (fun parts => errs ++ parts.flatten) := by
  intro l
  induction l with
  | nil =>
      intro hl errs
      rw [recurFold.eq_def]
      show Except.ok errs = Except.ok (errs ++ [])
      rw [List.append_nil]
  | cons e rest ih =>
      intro hl errs
      rw [recurFold.eq_def]
      show (do
          let errs2 ← recurStep reg obj pre e errs (hl e (List.mem_cons_self e rest))
          recurFold reg obj pre rest
            (fun x hx => hl x (List.mem_cons_of_mem _ hx)) errs2) = _
      rw [show exceptMapList (recurEntryErrs reg obj pre) (e :: rest)
          = (do
            let y ← recurEntryErrs reg obj pre e
            let ys ← exceptMapList (recurEntryErrs reg obj pre) rest
            pure (y :: ys)) from rfl]
      rw [recurStep_eq]
      cases hre : recurEntryErrs reg obj pre e with
      | error ex => rfl
      | ok es =>
          show recurFold reg obj pre rest
              (fun x hx => hl x (List.mem_cons_of_mem _ hx)) (errs ++ es) = _
          rw [ih _ (errs ++ es)]
          cases hm2 : exceptMapList (recurEntryErrs reg obj pre) rest with
          | error ex2 => rfl
          | ok parts2 =>
              show Except.ok ((errs ++ es) ++ parts2.flatten)
                = Except.ok (errs ++ List.flatten (es :: parts2))
              rw [List.flatten_cons, List.append_assoc]

/-- The walk is the direct-entry contributions in flat-table order followed
by the array-recursion contributions in flat-table order. -/
theorem validateFn_decomp (reg : Registry) (obj : Val)
    (schema : List (String × FieldRule)) (pre : List Seg) :
    validateFn reg obj schema pre = (do
      let d ← exceptMapList (directEntryErrs reg obj pre) (directPart schema)
      let r ← exceptMapList (recurEntryErrs reg obj pre) (recurPart schema)
      pure (d.flatten ++ r.flatten)) := by
  rw [validateFn.eq_def]
  show (do
      let errs ← directFold reg obj pre (schema.filter (fun e => !isRecurKey e.1)) []
      recurFold reg obj pre (schema.filter (fun e => isRecurKey e.1))
        (fun e he => by simpa using (List.mem_filter.mp he).2)
        errs) = _
  rw [show directPart schema = schema.filter (fun e => !isRecurKey e.1) from rfl,
      show recurPart schema = schema.filter (fun e => isRecurKey e.1) from rfl]
  rw [directFold_eq]
  cases hd : exceptMapList (directEntryErrs reg obj pre)
      (schema.filter (fun e => !isRecurKey e.1)) with
  | error ex => rfl
  | ok d =>
      show recurFold reg obj pre (schema.filter (fun e => isRecurKey e.1)) _
          ([] ++ d.flatten) = _
      rw [recurFold_eq]
      cases hr : exceptMapList (recurEntryErrs reg obj pre)
          (schema.filter (fun e => isRecurKey e.1)) with
      | error ex2 => rfl
      | ok r =>
          show Except.ok (([] ++ d.flatten) ++ r.flatten)
            = Except.ok (d.flatten ++ r.flatten)
          rw [List.nil_append]

/-- First-failure semantics, stated as a structurally recursive runner. -/
def runList : List VFun → VFun
  | [], _ => pure VRes.pass
  | v :: vs, o => do
      match ← v o with
      | VRes.fail e => pure (VRes.fail e)
      | VRes.pass => runList vs o

theorem composeValidators_eq_runList_aux :
    ∀ (n : Nat) (vs : List VFun), vs.length ≤ n → ∀ o,
      composeValidators vs o = runList vs o := by
  intro n
  induction n with
  | zero =>
      intro vs h o
      have hvs : vs = [] := List.length_eq_zero.mp (Nat.le_zero.mp h)
      subst hvs
      rw [composeValidators.eq_def]
      rfl
  | succ n ih =>
      intro vs h o
      match vs with
      | [] =>
          rw [composeValidators.eq_def]
          rfl
      | [v] =>
          rw [composeValidators.eq_def]
          show v o = runList [v] o
          rw [runList]
          cases hv : v o with
          | error ex => rfl
          | ok r => cases r <;> rfl
      | v1 :: v2 :: rest =>
          rw [composeValidators.eq_def]
          show composeValidators ((fun o => do
              match ← v1 o with
              | VRes.fail e => pure (VRes.fail e)
              | VRes.pass => v2 o) :: rest) o = _
          rw [ih _ (by simpa using Nat.le_of_succ_le_succ (by simpa using h)) o]
          rw [runList, runList]
          show (do
              let r ← (do
                match ← v1 o with
                | VRes.fail e => pure (VRes.fail e)
                | VRes.pass => v2 o)
              match r with
              | VRes.fail e => pure (VRes.fail e)
              | VRes.pass => runList rest o) = _
          cases h1 : v1 o with
          | error ex => rfl
          | ok r =>
          cases r with
          | fail e => rfl
          | pass =>
              show (do
                let r ← v2 o
                match r with
                | VRes.fail e => pure (VRes.fail e)
                | VRes.pass => runList rest o) = runList (v2 :: rest) o
              rw [runList]

/-- `composeValidators` runs its list in order and stops at the first error. -/
theorem composeValidators_eq_runList (vs : List VFun) (o : Val) :
    composeValidators vs o = runList vs o :=
  composeValidators_eq_runList_aux vs.length vs (Nat.le_refl _) o

/-! ## Flat-table entries always carry a `validate` mapping -/

theorem objSet_forall {P : String × FieldRule → Prop}
    (m : List (String × FieldRule)) (k : String) (v : FieldRule)
    (hm : ∀ e ∈ m, P e) (hv : P (k, v)) :
    ∀ e ∈ objSet m k v, P e := by
  intro e he
  unfold objSet at he
  split at he
  · rcases List.mem_map.mp he with ⟨x, hx, rfl⟩
    split
    · exact hv
    · exact hm x hx
  · rcases List.mem_append.mp he with h | h
    · exact hm e h
    · simp only [List.mem_singleton] at h
      subst h
      exact hv

theorem objMerge_forall {P : String × FieldRule → Prop}
    (b a : List (String × FieldRule))
    (ha : ∀ e ∈ a, P e) (hb : ∀ e ∈ b, P e) :
    ∀ e ∈ objMerge a b, P e := by
  induction b generalizing a with
  | nil => exact ha
  | cons x rest ih =>
      intro e he
      exact ih (objSet a x.1 x.2)
        (objSet_forall a x.1 x.2 ha (by simpa using hb x (List.mem_cons_self x rest)))
        (fun y hy => hb y (List.mem_cons_of_mem _ hy)) e he

theorem FieldRule.sizeOf_schema_lt (r : FieldRule) : sizeOf r.schema < sizeOf r := by
  cases r with
  | mk t a v s =>
      simp only [FieldRule.schema, FieldRule.mk.sizeOf_spec]
      omega

/-- Every entry the flattener records is a rule whose `validate` is present
(the `if (fieldSchema.validate)` guard). -/
theorem flattenAux_validate_isSome :
    ∀ (n : Nat) (schema : List (String × FieldRule)) (pre : List Seg)
      (acc : List (String × FieldRule)),
      sizeOf schema ≤ n →
      (∀ e ∈ acc, e.2.validate.isSome = true) →
      ∀ e ∈ flattenAux schema pre acc, e.2.validate.isSome = true := by
  intro n
  induction n with
  | zero =>
      intro schema pre acc hsz
      exfalso
      cases schema with
      | nil => simp at hsz
      | cons x rest =>
          simp only [List.cons.sizeOf_spec] at hsz
          omega
  | succ n ih =>
      intro schema pre acc hsz hacc
      match schema with
      | [] =>
          rw [flattenAux.eq_def]
          exact hacc
      | (field, r) :: rest =>
          have hszr : sizeOf rest ≤ n := by
            simp only [List.cons.sizeOf_spec, Prod.mk.sizeOf_spec] at hsz
            have := FieldRule.sizeOf_schema_lt r
            omega
          have hszs : sizeOf r.schema ≤ n := by
            simp only [List.cons.sizeOf_spec, Prod.mk.sizeOf_spec] at hsz
            have := FieldRule.sizeOf_schema_lt r
            omega
          rw [flattenAux.eq_def]
          have hstep : ∀ (flat2 : List (String × FieldRule)),
              (∀ e ∈ flat2, e.2.validate.isSome = true) →
              ∀ e ∈ flattenAux rest pre flat2, e.2.validate.isSome = true :=
            fun flat2 h2 => ih rest pre flat2 hszr h2
          have hflat1 : ∀ e ∈ (if (r.ftype = some "object" ∨ r.ftype = some "array")
                ∧ r.schema.isEmpty = false then
              objMerge acc (flattenAux r.schema
                ((pre ++ (if field = "$" ∧ pre.length ≠ 0 then [] else [Seg.field field]))
                  ++ (if r.ftype = some "object" then [] else [Seg.wild])) [])
            else acc), e.2.validate.isSome = true := by
            split
            · exact objMerge_forall _ _ hacc
                (ih r.schema _ [] hszs (by intro e he; cases he))
            · exact hacc
          cases hv : r.validate with
          | some vmap =>
              simp only [hv]
              refine hstep _ ?_
              refine objSet_forall _ _ _ hflat1 ?_
              simp [hv]
          | none =>
              simp only [hv]
              exact hstep _ hflat1

/-- A registry with no predicates at all. -/
def emptyReg : Registry := fun _ => none

theorem runList_append_pass (pre vs : List VFun) (o : Val)
    (h : ∀ f ∈ pre, f o = Except.ok VRes.pass) :
    runList (pre ++ vs) o = runList vs o := by
  induction pre with
  | nil => rfl
  | cons f rest ih =>
      show runList (f :: (rest ++ vs)) o = _
      rw [runList, h f (List.mem_cons_self f rest)]
      exact ih (fun g hg => h g (List.mem_cons_of_mem _ hg))

theorem runList_first_fail (v : VFun) (post : List VFun) (o : Val) (e : ErrorItem)
    (hv : v o = Except.ok (VRes.fail e)) :
    runList (v :: post) o = Except.ok (VRes.fail e) := by
  rw [runList, hv]
  rfl

/-- The spec-worded contract of `size` (for the refinement comparison in C9):
true iff the value is an array whose length lies in `[min, max]`, the upper
bound applying exactly when `max` is supplied. -/
def sizeSpec (o : Val) (mi : Int) (ma : Option Int) : Bool :=
  match o with
  | Val.arr l =>
      decide (mi ≤ (l.length : Int)) &&
        (match ma with
         | some m => decide ((l.length : Int) ≤ m)
         | none => true)
  | _ => false

/-! ## Provenance of error items (for the path-shape claim) -/

/-- A predicate call outcome that neither returns nor throws a pre-built
error item (it may return any value or throw an ordinary error). -/
def PlainOutcome : PredOutcome → Prop
  | Except.ok (RetV.val _) => True
  | Except.ok (RetV.errItem _) => False
  | Except.error (Exn.item _) => False
  | Except.error (Exn.other _) => True

/-- Every registry predicate has plain outcomes. -/
def PlainReg (reg : Registry) : Prop :=
  ∀ k p, reg k = some p → ∀ o args, PlainOutcome (p o args)

/-- Every ad-hoc predicate declared inside a rule has plain outcomes. -/
def PlainRule (fs : FieldRule) : Prop :=
  ∀ vmap, fs.validate = some vmap →
    ∀ (k : String) (f : Val → PredOutcome), (k, ArgSpec.fn f) ∈ vmap →
      ∀ o, PlainOutcome (f o)

def PlainSchema (schema : List (String × FieldRule)) : Prop :=
  ∀ e ∈ schema, PlainRule e.2

/-- The shape of a required-field error: reserved key/name, no arguments, and
a raw segment-sequence path (the level-local path, not a qualified string). -/
def RequiredShape (e : ErrorItem) : Prop :=
  e.validatorKey = some "required" ∧ e.validatorName = some "required"
    ∧ e.validatorArgs = [] ∧ ∃ p : List Seg, e.path = EPath.segs p

/-- The shape of an error built by a failing declared validator under root
prefix `pre`: its path is the wildcard-stripped dotted rendering of `pre`
extended by some deeper segments (`null` when that renders empty). -/
def ComposedShape (pre : List Seg) (e : ErrorItem) : Prop :=
  ∃ rest : List Seg,
    e.path = (if mapPathToKey (pre ++ rest) true = "" then EPath.null
              else EPath.s (mapPathToKey (pre ++ rest) true))

theorem composedShape_mono (pre mid : List Seg) (e : ErrorItem)
    (h : ComposedShape (pre ++ mid) e) : ComposedShape pre e := by
  rcases h with ⟨rest, hrest⟩
  exact ⟨mid ++ rest, by rwa [← List.append_assoc]⟩

theorem extraLookup_plain (k : String) (p : Predicate)
    (hp : extraLookup k = some p) (o : Val) (args : List Val) :
    PlainOutcome (p o args) := by
  unfold extraLookup at hp
  split at hp
  · injection hp with h
    subst h
    show PlainOutcome (allowedKeysP o args)
    unfold allowedKeysP
    cases h : allowedKeys o args with
    | error ex =>
        cases ex with
        | item e =>
            exfalso
            unfold allowedKeys jsObjectKeys at h
            cases o <;> simp [Except.bind, bind, pure, Except.pure] at h
        | other m => simp [Except.map, PlainOutcome]
    | ok b => simp [Except.map, PlainOutcome]
  · injection hp with h
    subst h
    simp [sizeP, PlainOutcome, pure, Except.pure]
  · injection hp with h
    subst h
    simp [isStringP, PlainOutcome, pure, Except.pure]
  · exact absurd hp (by simp)

theorem mkErrorItem_s_path (m : String) (field : String) (v : Val)
    (k1 k2 : Option String) (ar : List Val) :
    (mkErrorItem m (EPath.s field) v k1 k2 ar).path
      = if field = "" then EPath.null else EPath.s field := by
  simp only [mkErrorItem]
  by_cases hf : field = "" <;> simp [hf]

theorem resolvePredicate_plain (reg : Registry) (k : String) (a : ArgSpec)
    (sv : Val) (args : List Val)
    (hreg : PlainReg reg)
    (hfn : ∀ f, a = ArgSpec.fn f → ∀ v, PlainOutcome (f v)) :
    PlainOutcome (resolvePredicate reg k a sv args) := by
  unfold resolvePredicate
  cases hk : reg k with
  | some p => exact hreg k p hk sv args
  | none =>
      cases hx : extraLookup k with
      | some p => exact extraLookup_plain k p hx sv args
      | none =>
          cases a with
          | fn f => exact hfn f rfl sv
          | litTrue => trivial
          | arrv l => trivial
          | single v => trivial

theorem mkOneValidator_fail_shape (reg : Registry) (field k : String)
    (a : ArgSpec) (o : Val) (err : ErrorItem)
    (hreg : PlainReg reg)
    (hfn : ∀ f, a = ArgSpec.fn f → ∀ v, PlainOutcome (f v))
    (hrun : mkOneValidator reg field k a o = Except.ok (VRes.fail err)) :
    err.path = (if field = "" then EPath.null else EPath.s field) := by
  unfold mkOneValidator at hrun
  cases hc : resolvePredicate reg k a (sanitizeVal reg k o) (validatorArgsOf reg k a) with
  | error ex =>
      rw [hc] at hrun
      exact absurd hrun (by simp [Except.bind, bind])
  | ok r =>
      have hplain := resolvePredicate_plain reg k a (sanitizeVal reg k o)
        (validatorArgsOf reg k a) hreg hfn
      rw [hc] at hrun hplain
      cases r with
      | errItem e => exact absurd hplain (by simp [PlainOutcome])
      | val v =>
          have hrun2 : (if truthy v = true then (pure VRes.pass : Except Exn VRes)
              else pure (VRes.fail (mkErrorItem
                ("Validation " ++ k ++ " on " ++ field ++ " failed")
                (EPath.s field) (sanitizeVal reg k o) (some k) (some k)
                (validatorArgsOf reg k a))))
              = Except.ok (VRes.fail err) := hrun
          by_cases hv : truthy v = true
          · rw [if_pos hv] at hrun2
            exact absurd hrun2 (by simp [pure, Except.pure])
          · rw [if_neg hv] at hrun2
            have herr : mkErrorItem ("Validation " ++ k ++ " on " ++ field ++ " failed")
                (EPath.s field) (sanitizeVal reg k o) (some k) (some k)
                (validatorArgsOf reg k a) = err := by
              have := hrun2
              simp only [pure, Except.pure, Except.ok.injEq] at this
              injection this
            rw [← herr, mkErrorItem_s_path]

theorem runList_fail_mem (vs : List VFun) (o : Val) (err : ErrorItem)
    (h : runList vs o = Except.ok (VRes.fail err)) :
    ∃ v ∈ vs, v o = Except.ok (VRes.fail err) := by
  induction vs with
  | nil => exact absurd h (by simp [runList, pure, Except.pure])
  | cons v rest ih =>
      rw [runList] at h
      cases hv : v o with
      | error ex => rw [hv] at h; exact absurd h (by simp [Except.bind, bind])
      | ok r =>
          rw [hv] at h
          cases r with
          | fail e =>
              have : e = err := by
                have := h
                simp only [Except.bind, bind, pure, Except.pure, Except.ok.injEq] at this
                injection this
              subst this
              exact ⟨v, List.mem_cons_self v rest, hv⟩
          | pass =>
              have h2 : runList rest o = Except.ok (VRes.fail err) := h
              rcases ih h2 with ⟨w, hw, hwo⟩
              exact ⟨w, List.mem_cons_of_mem _ hw, hwo⟩

theorem exceptMapList_ok_mem {a b : Type} (f : a → Except Exn b)
    (l : List a) (parts : List b)
    (h : exceptMapList f l = Except.ok parts) :
    ∀ y ∈ parts, ∃ x ∈ l, f x = Except.ok y := by
  induction l generalizing parts with
  | nil =>
      have : parts = [] := by
        have := h
        simp only [exceptMapList, pure, Except.pure, Except.ok.injEq] at this
        exact this.symm
      subst this
      intro y hy
      cases hy
  | cons x rest ih =>
      rw [exceptMapList] at h
      cases hx : f x with
      | error ex => rw [hx] at h; exact absurd h (by simp [Except.bind, bind])
      | ok y0 =>
          rw [hx] at h
          cases hrest : exceptMapList f rest with
          | error ex => rw [hrest] at h; exact absurd h (by simp [Except.bind, bind])
          | ok ys =>
              rw [hrest] at h
              have hparts : y0 :: ys = parts := by
                have := h
                simp only [Except.bind, bind, pure, Except.pure, Except.ok.injEq] at this
                exact this
              subst hparts
              intro y hy
              rcases List.mem_cons.mp hy with hy | hy
              · exact ⟨x, List.mem_cons_self x rest, by rw [hx, hy]⟩
              · rcases ih ys hrest y hy with ⟨x2, hx2, hfx2⟩
                exact ⟨x2, List.mem_cons_of_mem _ hx2, hfx2⟩

theorem directEntryErrs_shape (reg : Registry) (obj : Val) (pre : List Seg)
    (key : String) (fs : FieldRule) (es : List ErrorItem)
    (hreg : PlainReg reg) (hrule : PlainRule fs)
    (h : directEntryErrs reg obj pre (key, fs) = Except.ok es) :
    ∀ e ∈ es, RequiredShape e ∨ ComposedShape pre e := by
  unfold directEntryErrs at h
  replace h : (if fs.allowNull = false ∧ isNullV (resolveDirect obj (mapKeyToPath key)) = true
      then (pure [requiredError (mapKeyToPath key) (resolveDirect obj (mapKeyToPath key))]
        : Except Exn (List ErrorItem))
      else if fs.allowNull = true ∧ isNullV (resolveDirect obj (mapKeyToPath key)) = true
      then pure []
      else do
        let r ← (match fs.validate with
          | some vmap => composeValidators (schemaToValidators reg
              (mapPathToKey (pre ++ mapKeyToPath key) true) vmap)
          | none => fun _ => pure VRes.pass) (resolveDirect obj (mapKeyToPath key))
        match r with
        | VRes.fail err => pure [err]
        | VRes.pass => pure []) = Except.ok es := h
  split at h
  · have hes : [requiredError (mapKeyToPath key) (resolveDirect obj (mapKeyToPath key))] = es := by
      simpa [pure, Except.pure] using h
    subst hes
    intro e he
    simp only [List.mem_singleton] at he
    subst he
    left
    refine ⟨by simp [requiredError, mkErrorItem], by simp [requiredError, mkErrorItem],
      by simp [requiredError, mkErrorItem], ⟨mapKeyToPath key, ?_⟩⟩
    simp [requiredError, mkErrorItem]
  · split at h
    · have hes : ([] : List ErrorItem) = es := by simpa [pure, Except.pure] using h
      subst hes
      intro e he
      cases he
    · cases hfv : fs.validate with
      | none =>
          rw [hfv] at h
          replace h : (pure [] : Except Exn (List ErrorItem)) = Except.ok es := h
          have hes : ([] : List ErrorItem) = es := by simpa [pure, Except.pure] using h
          subst hes
          intro e he
          cases he
      | some vmap =>
          rw [hfv] at h
          replace h : (do
              let r ← composeValidators (schemaToValidators reg
                  (mapPathToKey (pre ++ mapKeyToPath key) true) vmap)
                (resolveDirect obj (mapKeyToPath key))
              match r with
              | VRes.fail err => (pure [err] : Except Exn (List ErrorItem))
              | VRes.pass => pure []) = Except.ok es := h
          rw [composeValidators_eq_runList] at h
          cases hr : runList (schemaToValidators reg
              (mapPathToKey (pre ++ mapKeyToPath key) true) vmap)
              (resolveDirect obj (mapKeyToPath key)) with
          | error ex => rw [hr] at h; exact absurd h (by simp [Except.bind, bind])
          | ok r =>
              rw [hr] at h
              cases r with
              | pass =>
                  have hes : ([] : List ErrorItem) = es := by
                    simpa [pure, Except.pure, Except.bind, bind] using h
                  subst hes
                  intro e he
                  cases he
              | fail err =>
                  have hes : [err] = es := by
                    simpa [pure, Except.pure, Except.bind, bind] using h
                  subst hes
                  intro e he
                  simp only [List.mem_singleton] at he
                  subst he
                  right
                  rcases runList_fail_mem _ _ _ hr with ⟨v, hv, hvo⟩
                  rcases List.mem_map.mp hv with ⟨⟨k2, a2⟩, hk2, rfl⟩
                  have hshape := mkOneValidator_fail_shape reg
                    (mapPathToKey (pre ++ mapKeyToPath key) true) k2 a2
                    (resolveDirect obj (mapKeyToPath key)) e hreg
                    (fun f hf v => hrule vmap hfv k2 f (by rwa [hf] at hk2) v) hvo
                  exact ⟨mapKeyToPath key, by rw [hshape]⟩

theorem schemaMeasure_zero_eq_nil (s : List (String × FieldRule))
    (h : schemaMeasure s = 0) : s = [] := by
  cases s with
  | nil => rfl
  | cons x rest =>
      exfalso
      have h1 := one_le_keyLen x.1
      simp only [schemaMeasure, List.map_cons, List.sum_cons] at h
      omega

theorem validateFn_nil (reg : Registry) (obj : Val) (pre : List Seg) :
    validateFn reg obj [] pre = Except.ok [] := by
  rw [validateFn_decomp]
  rfl

theorem validateFn_err_shape :
    ∀ (n : Nat) (reg : Registry) (obj : Val) (schema : List (String × FieldRule))
      (pre : List Seg) (errs : List ErrorItem),
      schemaMeasure schema ≤ n → PlainReg reg → PlainSchema schema →
      validateFn reg obj schema pre = Except.ok errs →
      ∀ e ∈ errs, RequiredShape e ∨ ComposedShape pre e := by
  intro n
  induction n with
  | zero =>
      intro reg obj schema pre errs hsz hreg hsch hrun e he
      have hnil : schema = [] := schemaMeasure_zero_eq_nil _ (Nat.le_zero.mp hsz)
      subst hnil
      rw [validateFn_nil] at hrun
      have : ([] : List ErrorItem) = errs := by simpa using hrun
      subst this
      cases he
  | succ n ih =>
      intro reg obj schema pre errs hsz hreg hsch hrun e he
      rw [validateFn_decomp] at hrun
      cases hd : exceptMapList (directEntryErrs reg obj pre) (directPart schema) with
      | error ex =>
          rw [hd] at hrun
          exact absurd hrun (by simp [Except.bind, bind])
      | ok d =>
          rw [hd] at hrun
          cases hr : exceptMapList (recurEntryErrs reg obj pre) (recurPart schema) with
          | error ex =>
              rw [hr] at hrun
              exact absurd hrun (by simp [Except.bind, bind])
          | ok r =>
              rw [hr] at hrun
              have herrs : d.flatten ++ r.flatten = errs := by
                simpa [Except.bind, bind, pure, Except.pure] using hrun
              subst herrs
              rcases List.mem_append.mp he with hmem | hmem
              · -- a direct-entry error
                rcases List.mem_flatten.mp hmem with ⟨es, hes, hees⟩
                rcases exceptMapList_ok_mem _ _ _ hd es hes with ⟨en, hen, henok⟩
                have hensch : en ∈ schema := (List.mem_filter.mp hen).1
                exact directEntryErrs_shape reg obj pre en.1 en.2 es hreg
                  (hsch en hensch) henok e hees
              · -- an array-recursion error
                rcases List.mem_flatten.mp hmem with ⟨rs, hrs, hers⟩
                rcases exceptMapList_ok_mem _ _ _ hr rs hrs with ⟨en, hen, henok⟩
                have hensch : en ∈ schema := (List.mem_filter.mp hen).1
                have henrec : isRecurKey en.1 = true := by
                  simpa using (List.mem_filter.mp hen).2
                unfold recurEntryErrs at henok
                replace henok : (match recurTarget (getIn obj
                    ((mapKeyToPath en.1).take ((mapKeyToPath en.1).findIdx isWildSeg))) with
                  | RecurAction.iterate elems =>
                      (exceptMapList (fun p =>
                        validateFn reg p.2
                          [(orDollar (mapPathToKey
                            ((mapKeyToPath en.1).drop
                              ((mapKeyToPath en.1).findIdx isWildSeg + 1)) false), en.2)]
                          (pre ++ (mapKeyToPath en.1).take
                              ((mapKeyToPath en.1).findIdx isWildSeg)
                            ++ [Seg.index p.1])) elems.enum).map List.flatten
                  | RecurAction.skip => pure []
                  | RecurAction.typeError =>
                      Except.error (Exn.other "TypeError: arr.forEach is not a function"))
                  = Except.ok rs := henok
                cases ht : recurTarget (getIn obj
                    ((mapKeyToPath en.1).take ((mapKeyToPath en.1).findIdx isWildSeg))) with
                | skip =>
                    rw [ht] at henok
                    replace henok : (pure [] : Except Exn (List ErrorItem))
                      = Except.ok rs := henok
                    have : ([] : List ErrorItem) = rs := by
                      simpa [pure, Except.pure] using henok
                    subst this
                    cases hers
                | typeError =>
                    rw [ht] at henok
                    exact absurd henok (by simp)
                | iterate elems =>
                    rw [ht] at henok
                    replace henok : (exceptMapList (fun p =>
                        validateFn reg p.2
                          [(orDollar (mapPathToKey
                            ((mapKeyToPath en.1).drop
                              ((mapKeyToPath en.1).findIdx isWildSeg + 1)) false), en.2)]
                          (pre ++ (mapKeyToPath en.1).take
                              ((mapKeyToPath en.1).findIdx isWildSeg)
                            ++ [Seg.index p.1])) elems.enum).map List.flatten
                      = Except.ok rs := henok
                    cases hml : exceptMapList (fun p =>
                        validateFn reg p.2
                          [(orDollar (mapPathToKey
                            ((mapKeyToPath en.1).drop
                              ((mapKeyToPath en.1).findIdx isWildSeg + 1)) false), en.2)]
                          (pre ++ (mapKeyToPath en.1).take
                              ((mapKeyToPath en.1).findIdx isWildSeg)
                            ++ [Seg.index p.1])) elems.enum with
                    | error ex =>
                        rw [hml] at henok
                        exact absurd henok (by simp [Except.map])
                    | ok parts =>
                        rw [hml] at henok
                        have hrs : parts.flatten = rs := by
                          simpa [Except.map] using henok
                        subst hrs
                        rcases List.mem_flatten.mp hers with ⟨part, hpart, hepart⟩
                        rcases exceptMapList_ok_mem _ _ _ hml part hpart
                          with ⟨⟨i, el⟩, _, hcall⟩
                        have hm1 : schemaMeasure
                            [(orDollar (mapPathToKey
                              ((mapKeyToPath en.1).drop
                                ((mapKeyToPath en.1).findIdx isWildSeg + 1)) false), en.2)]
                            ≤ n := by
                          have hlt := recur_newKey_lt en.1 henrec
                          have hle := keyLen_le_schemaMeasure en schema hensch
                          simp only [schemaMeasure, List.map_cons, List.map_nil,
                            List.sum_cons, List.sum_nil]
                          omega
                        have hsch1 : PlainSchema
                            [(orDollar (mapPathToKey
                              ((mapKeyToPath en.1).drop
                                ((mapKeyToPath en.1).findIdx isWildSeg + 1)) false), en.2)] := by
                          intro x hx
                          simp only [List.mem_singleton] at hx
                          subst hx
                          exact hsch en hensch
                        have hshape := ih reg el _ _ part hm1 hreg hsch1 hcall e hepart
                        rcases hshape with hreq | hcomp
                        · exact Or.inl hreq
                        · right
                          rw [List.append_assoc] at hcomp
                          exact composedShape_mono pre _ e hcomp

/-! ## Fuel-bounded executable mirror of the walk

The walk and the flattener are defined by well-founded recursion and so do
not reduce definitionally; the following fuel-bounded structural versions
do, and the soundness lemmas transport any `some` result back to the
original functions, letting concrete runs be settled by `rfl`. -/

/-- Like `directEntryErrs` but with the composed validator replaced by the
structurally recursive `runList` runner (equal by
`composeValidators_eq_runList`). -/
def directEntryErrsR (reg : Registry) (obj : Val) (pre : List Seg)
    (e : String × FieldRule) : Except Exn (List ErrorItem) := do
  let path := mapKeyToPath e.1
  let fs := e.2
  let fieldvalidator : VFun :=
    match fs.validate with
    | some vmap =>
        runList (schemaToValidators reg (mapPathToKey (pre ++ path) true) vmap)
    | none => fun _ => pure VRes.pass
  let value := resolveDirect obj path
  if fs.allowNull = false ∧ isNullV value = true then
    pure [requiredError path value]
  else if fs.allowNull = true ∧ isNullV value = true then
    pure []
  else
    match ← fieldvalidator value with
    | VRes.fail err => pure [err]
    | VRes.pass => pure []

theorem directEntryErrsR_eq (reg : Registry) (obj : Val) (pre : List Seg)
    (e : String × FieldRule) :
    directEntryErrsR reg obj pre e = directEntryErrs reg obj pre e := by
  have hfun : ∀ vs : List VFun, composeValidators vs = runList vs :=
    fun vs => funext (fun o => composeValidators_eq_runList vs o)
  unfold directEntryErrsR directEntryErrs
  simp only [hfun]

/-- The direct-entry fold with `directEntryErrsR` in place of
`directEntryErrs`. -/
def directFoldR (reg : Registry) (obj : Val) (pre : List Seg) :
    List (String × FieldRule) → List ErrorItem → Except Exn (List ErrorItem)
  | [], errs => pure errs
  | e :: rest, errs => do
      let es ← directEntryErrsR reg obj pre e
      directFoldR reg obj pre rest (errs ++ es)

theorem directFoldR_eq (reg : Registry) (obj : Val) (pre : List Seg) :
    ∀ (l : List (String × FieldRule)) (errs : List ErrorItem),
      directFoldR reg obj pre l errs = directFold reg obj pre l errs := by
  intro l
  induction l with
  | nil => intro errs; rfl
  | cons e rest ih =>
      intro errs
      show (do
          let es ← directEntryErrsR reg obj pre e
          directFoldR reg obj pre rest (errs ++ es)) = (do
          let es ← directEntryErrs reg obj pre e
          directFold reg obj pre rest (errs ++ es))
      rw [directEntryErrsR_eq]
      cases h : directEntryErrs reg obj pre e with
      | error ex => rfl
      | ok es =>
          show directFoldR reg obj pre rest (errs ++ es)
              = directFold reg obj pre rest (errs ++ es)
          exact ih (errs ++ es)

/-- The element loop of the fuel evaluator, abstracted over the per-element
runner (a partial application of the evaluator at smaller fuel); `none`
anywhere means the fuel ran out. -/
def elemsListF (run : Val → Nat → Option (Except Exn (List ErrorItem))) :
    List Val → Nat → List ErrorItem → Option (Except Exn (List ErrorItem))
  | [], _, errs => some (Except.ok errs)
  | el :: rest, i, errs =>
      match run el i with
      | none => none
      | some (Except.error ex) => some (Except.error ex)
      | some (Except.ok arrErrs) => elemsListF run rest (i + 1) (errs ++ arrErrs)

/-- The deferred-entry loop of the fuel evaluator, abstracted over the
per-entry step. -/
def recurListF (step : String × FieldRule → List ErrorItem →
    Option (Except Exn (List ErrorItem))) :
    List (String × FieldRule) → List ErrorItem → Option (Except Exn (List ErrorItem))
  | [], errs => some (Except.ok errs)
  | e :: rest, errs =>
      match step e errs with
      | none => none
      | some (Except.error ex) => some (Except.error ex)
      | some (Except.ok errs2) => recurListF step rest errs2

/-- One deferred entry of the fuel evaluator, abstracted over the recursive
walk at smaller fuel. -/
def recurStepF (vf : Val → List (String × FieldRule) → List Seg →
    Option (Except Exn (List ErrorItem)))
    (obj : Val) (pre : List Seg) (e : String × FieldRule) (errs : List ErrorItem) :
    Option (Except Exn (List ErrorItem)) :=
  match recurTarget (getIn obj
      ((mapKeyToPath e.1).take ((mapKeyToPath e.1).findIdx isWildSeg))) with
  | RecurAction.iterate elems =>
      elemsListF (fun el i => vf el
        [(orDollar (mapPathToKey
          ((mapKeyToPath e.1).drop ((mapKeyToPath e.1).findIdx isWildSeg + 1)) false), e.2)]
        (pre ++ (mapKeyToPath e.1).take ((mapKeyToPath e.1).findIdx isWildSeg)
          ++ [Seg.index i])) elems 0 errs
  | RecurAction.skip => some (Except.ok errs)
  | RecurAction.typeError =>
      some (Except.error (Exn.other "TypeError: arr.forEach is not a function"))

/-- The fuel-bounded walk: structurally recursive on the fuel, hence
definitionally reducible on concrete inputs. -/
def vfF : Nat → Registry → Val → List (String × FieldRule) → List Seg →
    Option (Except Exn (List ErrorItem))
  | 0, _, _, _, _ => none
  | n + 1, reg, obj, schema, pre =>
      match directFoldR reg obj pre (schema.filter (fun e => !isRecurKey e.1)) [] with
      | Except.error ex => some (Except.error ex)
      | Except.ok errs =>
          recurListF (recurStepF (fun el s p => vfF n reg el s p) obj pre)
            (schema.filter (fun e => isRecurKey e.1)) errs

theorem elemsListF_sound (reg : Registry) (fs : FieldRule) (newKey : String)
    (basePre : List Seg) (run : Val → Nat → Option (Except Exn (List ErrorItem)))
    (hrun : ∀ el i r, run el i = some r →
      validateFn reg el [(newKey, fs)] (basePre ++ [Seg.index i]) = r) :
    ∀ (elems : List Val) (i : Nat) (errs : List ErrorItem)
      (r : Except Exn (List ErrorItem)),
      elemsListF run elems i errs = some r →
      elemsFold reg fs newKey basePre elems i errs = r := by
  intro elems
  induction elems with
  | nil =>
      intro i errs r h
      replace h : (some (Except.ok errs) : Option (Except Exn (List ErrorItem)))
          = some r := h
      rw [elemsFold.eq_def, ← Option.some.inj h]
      rfl
  | cons el rest ih =>
      intro i errs r h
      replace h : (match run el i with
          | none => none
          | some (Except.error ex) => some (Except.error ex)
          | some (Except.ok arrErrs) => elemsListF run rest (i + 1) (errs ++ arrErrs))
          = some r := h
      rw [elemsFold.eq_def]
      show (do
          let arrErrs ← validateFn reg el [(newKey, fs)] (basePre ++ [Seg.index i])
          elemsFold reg fs newKey basePre rest (i + 1) (errs ++ arrErrs)) = r
      cases hr0 : run el i with
      | none =>
          rw [hr0] at h
          exact Option.noConfusion h
      | some res =>
          rw [hr0] at h
          cases res with
          | error ex =>
              replace h : (some (Except.error ex) : Option (Except Exn (List ErrorItem)))
                  = some r := h
              rw [hrun el i _ hr0, ← Option.some.inj h]
              rfl
          | ok arrErrs =>
              replace h : elemsListF run rest (i + 1) (errs ++ arrErrs) = some r := h
              rw [hrun el i _ hr0]
              show elemsFold reg fs newKey basePre rest (i + 1) (errs ++ arrErrs) = r
              exact ih (i + 1) (errs ++ arrErrs) r h

theorem recurStepF_sound (reg : Registry) (obj : Val) (pre : List Seg)
    (vf : Val → List (String × FieldRule) → List Seg →
      Option (Except Exn (List ErrorItem)))
    (hvf : ∀ el s p r, vf el s p = some r → validateFn reg el s p = r)
    (e : String × FieldRule) (errs : List ErrorItem)
    (hrec : isRecurKey e.1 = true) (r : Except Exn (List ErrorItem))
    (h : recurStepF vf obj pre e errs = some r) :
    recurStep reg obj pre e errs hrec = r := by
  replace h : (match recurTarget (getIn obj
        ((mapKeyToPath e.1).take ((mapKeyToPath e.1).findIdx isWildSeg))) with
      | RecurAction.iterate elems =>
          elemsListF (fun el i => vf el
            [(orDollar (mapPathToKey
              ((mapKeyToPath e.1).drop ((mapKeyToPath e.1).findIdx isWildSeg + 1)) false),
              e.2)]
            (pre ++ (mapKeyToPath e.1).take ((mapKeyToPath e.1).findIdx isWildSeg)
              ++ [Seg.index i])) elems 0 errs
      | RecurAction.skip => some (Except.ok errs)
      | RecurAction.typeError =>
          some (Except.error (Exn.other "TypeError: arr.forEach is not a function")))
      = some r := h
  rw [recurStep.eq_def]
  cases ht : recurTarget (getIn obj
      ((mapKeyToPath e.1).take ((mapKeyToPath e.1).findIdx isWildSeg))) with
  | iterate elems =>
      rw [ht] at h
      replace h : elemsListF (fun el i => vf el
          [(orDollar (mapPathToKey
            ((mapKeyToPath e.1).drop ((mapKeyToPath e.1).findIdx isWildSeg + 1)) false),
            e.2)]
          (pre ++ (mapKeyToPath e.1).take ((mapKeyToPath e.1).findIdx isWildSeg)
            ++ [Seg.index i])) elems 0 errs = some r := h
      exact elemsListF_sound reg e.2
        (orDollar (mapPathToKey
          ((mapKeyToPath e.1).drop ((mapKeyToPath e.1).findIdx isWildSeg + 1)) false))
        (pre ++ (mapKeyToPath e.1).take ((mapKeyToPath e.1).findIdx isWildSeg))
        _ (fun el i r' h' => hvf el _ _ r' h') elems 0 errs r h
  | skip =>
      rw [ht] at h
      replace h : (some (Except.ok errs) : Option (Except Exn (List ErrorItem)))
          = some r := h
      exact Option.some.inj h
  | typeError =>
      rw [ht] at h
      replace h : (some (Except.error
          (Exn.other "TypeError: arr.forEach is not a function"))
          : Option (Except Exn (List ErrorItem))) = some r := h
      exact Option.some.inj h

theorem recurListF_sound (reg : Registry) (obj : Val) (pre : List Seg)
    (step : String × FieldRule → List ErrorItem → Option (Except Exn (List ErrorItem)))
    (hstep : ∀ e errs r (hrec : isRecurKey e.1 = true), step e errs = some r →
      recurStep reg obj pre e errs hrec = r) :
    ∀ (l : List (String × FieldRule)) (hl : ∀ e ∈ l, isRecurKey e.1 = true)
      (errs : List ErrorItem) (r : Except Exn (List ErrorItem)),
      recurListF step l errs = some r → recurFold reg obj pre l hl errs = r := by
  intro l
  induction l with
  | nil =>
      intro hl errs r h
      replace h : (some (Except.ok errs) : Option (Except Exn (List ErrorItem)))
          = some r := h
      rw [recurFold.eq_def, ← Option.some.inj h]
      rfl
  | cons e rest ih =>
      intro hl errs r h
      replace h : (match step e errs with
          | none => none
          | some (Except.error ex) => some (Except.error ex)
          | some (Except.ok errs2) => recurListF step rest errs2) = some r := h
      rw [recurFold.eq_def]
      show (do
          let errs2 ← recurStep reg obj pre e errs (hl e (List.mem_cons_self e rest))
          recurFold reg obj pre rest
            (fun x hx => hl x (List.mem_cons_of_mem _ hx)) errs2) = r
      cases hs : step e errs with
      | none =>
          rw [hs] at h
          exact Option.noConfusion h
      | some res =>
          rw [hs] at h
          cases res with
          | error ex =>
              replace h : (some (Except.error ex) : Option (Except Exn (List ErrorItem)))
                  = some r := h
              rw [hstep e errs _ (hl e (List.mem_cons_self e rest)) hs,
                ← Option.some.inj h]
              rfl
          | ok errs2 =>
              replace h : recurListF step rest errs2 = some r := h
              rw [hstep e errs _ (hl e (List.mem_cons_self e rest)) hs]
              show recurFold reg obj pre rest
                  (fun x hx => hl x (List.mem_cons_of_mem _ hx)) errs2 = r
              exact ih (fun x hx => hl x (List.mem_cons_of_mem _ hx)) errs2 r h

theorem vfF_sound :
    ∀ (n : Nat) (reg : Registry) (obj : Val) (schema : List (String × FieldRule))
      (pre : List Seg) (r : Except Exn (List ErrorItem)),
      vfF n reg obj schema pre = some r → validateFn reg obj schema pre = r := by
  intro n
  induction n with
  | zero =>
      intro reg obj schema pre r h
      exact Option.noConfusion h
  | succ n ih =>
      intro reg obj schema pre r h
      replace h : (match directFoldR reg obj pre
            (schema.filter (fun e => !isRecurKey e.1)) [] with
          | Except.error ex => some (Except.error ex)
          | Except.ok errs =>
              recurListF (recurStepF (fun el s p => vfF n reg el s p) obj pre)
                (schema.filter (fun e => isRecurKey e.1)) errs) = some r := h
      rw [directFoldR_eq] at h
      rw [validateFn.eq_def]
      show (do
          let errs ← directFold reg obj pre (schema.filter (fun e => !isRecurKey e.1)) []
          recurFold reg obj pre (schema.filter (fun e => isRecurKey e.1))
            (fun e he => by simpa using (List.mem_filter.mp he).2)
            errs) = r
      cases hd : directFold reg obj pre (schema.filter (fun e => !isRecurKey e.1)) [] with
      | error ex =>
          rw [hd] at h
          replace h : (some (Except.error ex) : Option (Except Exn (List ErrorItem)))
              = some r := h
          exact Option.some.inj h
      | ok errs =>
          rw [hd] at h
          replace h : recurListF (recurStepF (fun el s p => vfF n reg el s p) obj pre)
              (schema.filter (fun e => isRecurKey e.1)) errs = some r := h
          show recurFold reg obj pre (schema.filter (fun e => isRecurKey e.1))
              (fun e he => by simpa using (List.mem_filter.mp he).2) errs = r
          exact recurListF_sound reg obj pre
            (recurStepF (fun el s p => vfF n reg el s p) obj pre)
            (fun e' errs' r' hrec' hs => recurStepF_sound reg obj pre
              (fun el s p => vfF n reg el s p)
              (fun el s p r'' h'' => ih reg el s p r'' h'')
              e' errs' hrec' r' hs)
            (schema.filter (fun e => isRecurKey e.1))
            (fun e he => by simpa using (List.mem_filter.mp he).2)
            errs r h

/-- The fuel-bounded flattener, structurally recursive on the fuel. -/
def flattenAuxF : Nat → List (String × FieldRule) → List Seg →
    List (String × FieldRule) → Option (List (String × FieldRule))
  | 0, _, _, _ => none
  | _ + 1, [], _, flat => some flat
  | n + 1, (field, r) :: rest, pre, flat =>
      match (if (r.ftype = some "object" ∨ r.ftype = some "array")
            ∧ r.schema.isEmpty = false then
          (flattenAuxF n r.schema
            ((pre ++ (if field = "$" ∧ pre.length ≠ 0 then [] else [Seg.field field]))
              ++ (if r.ftype = some "object" then [] else [Seg.wild])) []).map
            (objMerge flat)
        else some flat) with
      | none => none
      | some flat1 =>
          flattenAuxF n rest pre
            (match r.validate with
             | some _ => objSet flat1 (mapPathToKey
                 (pre ++ (if field = "$" ∧ pre.length ≠ 0 then []
                   else [Seg.field field])) false) r
             | none => flat1)

theorem flattenAuxF_sound :
    ∀ (n : Nat) (s : List (String × FieldRule)) (pre : List Seg)
      (flat r : List (String × FieldRule)),
      flattenAuxF n s pre flat = some r → flattenAux s pre flat = r := by
  intro n
  induction n with
  | zero =>
      intro s pre flat r h
      exact Option.noConfusion h
  | succ n ih =>
      intro s pre flat r h
      cases s with
      | nil =>
          replace h : (some flat : Option (List (String × FieldRule))) = some r := h
          injection h with h
          subst h
          rw [flattenAux.eq_def]
      | cons hd rest =>
          obtain ⟨field, rule⟩ := hd
          replace h : (match (if (rule.ftype = some "object" ∨ rule.ftype = some "array")
                ∧ rule.schema.isEmpty = false then
              (flattenAuxF n rule.schema
                ((pre ++ (if field = "$" ∧ pre.length ≠ 0 then []
                  else [Seg.field field]))
                  ++ (if rule.ftype = some "object" then [] else [Seg.wild])) []).map
                (objMerge flat)
            else some flat) with
          | none => none
          | some flat1 =>
              flattenAuxF n rest pre
                (match rule.validate with
                 | some _ => objSet flat1 (mapPathToKey
                     (pre ++ (if field = "$" ∧ pre.length ≠ 0 then []
                       else [Seg.field field])) false) rule
                 | none => flat1)) = some r := h
          rw [flattenAux.eq_def]
          show flattenAux rest pre
              (match rule.validate with
               | some _ => objSet
                   (if (rule.ftype = some "object" ∨ rule.ftype = some "array")
                       ∧ rule.schema.isEmpty = false then
                     objMerge flat (flattenAux rule.schema
                       ((pre ++ (if field = "$" ∧ pre.length ≠ 0 then []
                         else [Seg.field field]))
                         ++ (if rule.ftype = some "object" then [] else [Seg.wild])) [])
                   else flat)
                   (mapPathToKey (pre ++ (if field = "$" ∧ pre.length ≠ 0 then []
                     else [Seg.field field])) false) rule
               | none =>
                   (if (rule.ftype = some "object" ∨ rule.ftype = some "array")
                       ∧ rule.schema.isEmpty = false then
                     objMerge flat (flattenAux rule.schema
                       ((pre ++ (if field = "$" ∧ pre.length ≠ 0 then []
                         else [Seg.field field]))
                         ++ (if rule.ftype = some "object" then [] else [Seg.wild])) [])
                   else flat)) = r
          by_cases hc : (rule.ftype = some "object" ∨ rule.ftype = some "array")
              ∧ rule.schema.isEmpty = false
          · rw [if_pos hc] at h
            cases hf : flattenAuxF n rule.schema
                ((pre ++ (if field = "$" ∧ pre.length ≠ 0 then []
                  else [Seg.field field]))
                  ++ (if rule.ftype = some "object" then [] else [Seg.wild])) [] with
            | none =>
                rw [hf] at h
                exact Option.noConfusion h
            | some child =>
                rw [hf] at h
                replace h : flattenAuxF n rest pre
                    (match rule.validate with
                     | some _ => objSet (objMerge flat child) (mapPathToKey
                         (pre ++ (if field = "$" ∧ pre.length ≠ 0 then []
                           else [Seg.field field])) false) rule
                     | none => objMerge flat child) = some r := h
                have hch : flattenAux rule.schema
                    ((pre ++ (if field = "$" ∧ pre.length ≠ 0 then []
                      else [Seg.field field]))
                      ++ (if rule.ftype = some "object" then [] else [Seg.wild])) []
                    = child := ih rule.schema _ [] child hf
                simp only [if_pos hc, hch]
                exact ih rest pre _ r h
          · rw [if_neg hc] at h
            replace h : flattenAuxF n rest pre
                (match rule.validate with
                 | some _ => objSet flat (mapPathToKey
                     (pre ++ (if field = "$" ∧ pre.length ≠ 0 then []
                       else [Seg.field field])) false) rule
                 | none => flat) = some r := h
            simp only [if_neg hc]
            exact ih rest pre _ r h

/-- The fuel-bounded public entry point. -/
def validateF (n : Nat) (reg : Registry) (obj : Val) (schema : SchemaV)
    (pre : List Seg) : Option ValidateOutcome :=
  if isContainer obj = false then
    some (ValidateOutcome.assertionError
      "object to validate should be an object or an array")
  else
    match schema with
    | SchemaV.decl s =>
        match flattenAuxF n s [] [] with
        | none => none
        | some flat =>
            match vfF n reg obj flat pre with
            | none => none
            | some (Except.ok []) => some ValidateOutcome.ok
            | some (Except.ok errs) => some (ValidateOutcome.validationErrors errs)
            | some (Except.error (Exn.item e)) => some (ValidateOutcome.thrownItem e)
            | some (Except.error (Exn.other m)) => some (ValidateOutcome.otherError m)
    | _ => some (ValidateOutcome.assertionError "schema should be valid")

theorem validateF_sound (n : Nat) (reg : Registry) (obj : Val) (schema : SchemaV)
    (pre : List Seg) (r : ValidateOutcome)
    (h : validateF n reg obj schema pre = some r) :
    validate reg obj schema pre = r := by
  unfold validate
  unfold validateF at h
  by_cases hc : isContainer obj = false
  · rw [if_pos hc] at h
    rw [if_pos hc]
    exact Option.some.inj h
  · rw [if_neg hc] at h
    rw [if_neg hc]
    cases schema with
    | vnull => exact Option.some.inj h
    | prim v => exact Option.some.inj h
    | decl s =>
        replace h : (match flattenAuxF n s [] [] with
            | none => none
            | some flat =>
                match vfF n reg obj flat pre with
                | none => none
                | some (Except.ok []) => some ValidateOutcome.ok
                | some (Except.ok errs) => some (ValidateOutcome.validationErrors errs)
                | some (Except.error (Exn.item e)) => some (ValidateOutcome.thrownItem e)
                | some (Except.error (Exn.other m)) =>
                    some (ValidateOutcome.otherError m)) = some r := h
        show (match validateFn reg obj (flattenSchema s) pre with
            | Except.ok [] => ValidateOutcome.ok
            | Except.ok errs => ValidateOutcome.validationErrors errs
            | Except.error (Exn.item e) => ValidateOutcome.thrownItem e
            | Except.error (Exn.other m) => ValidateOutcome.otherError m) = r
        cases hf : flattenAuxF n s [] [] with
        | none =>
            rw [hf] at h
            exact Option.noConfusion h
        | some flat =>
            rw [hf] at h
            replace h : (match vfF n reg obj flat pre with
                | none => none
                | some (Except.ok []) => some ValidateOutcome.ok
                | some (Except.ok errs) => some (ValidateOutcome.validationErrors errs)
                | some (Except.error (Exn.item e)) => some (ValidateOutcome.thrownItem e)
                | some (Except.error (Exn.other m)) =>
                    some (ValidateOutcome.otherError m)) = some r := h
            rw [show flattenSchema s = flattenAux s [] [] from rfl,
              flattenAuxF_sound n s [] [] flat hf]
            cases hv : vfF n reg obj flat pre with
            | none =>
                rw [hv] at h
                exact Option.noConfusion h
            | some res =>
                rw [hv] at h
                rw [vfF_sound n reg obj flat pre res hv]
                cases res with
                | error ex =>
                    cases ex with
                    | item e =>
                        replace h : (some (ValidateOutcome.thrownItem e)
                            : Option ValidateOutcome) = some r := h
                        exact Option.some.inj h
                    | other m =>
                        replace h : (some (ValidateOutcome.otherError m)
                            : Option ValidateOutcome) = some r := h
                        exact Option.some.inj h
                | ok errs =>
                    cases errs with
                    | nil =>
                        replace h : (some ValidateOutcome.ok
                            : Option ValidateOutcome) = some r := h
                        exact Option.some.inj h
                    | cons e0 es =>
                        replace h : (some (ValidateOutcome.validationErrors (e0 :: es))
                            : Option ValidateOutcome) = some r := h
                        exact Option.some.inj h

/-! ## Claims -/

/-- C1: for a non-null object-or-array value and a non-null object schema,
`validate` returns success exactly when the tree walk collects no errors and
otherwise raises the aggregate wrapping exactly the collected list; violated
preconditions raise an assertion failure (a distinct outcome from the
aggregate), and the empty schema accepts any valid container. -/
theorem claim_C1 :
    (∀ (reg : Registry) (obj : Val) (s : List (String × FieldRule)) (errs : List ErrorItem),
      isContainer obj = true →
      validateFn reg obj (flattenSchema s) [] = Except.ok errs →
      validate reg obj (SchemaV.decl s)
        = (if errs.isEmpty then ValidateOutcome.ok
           else ValidateOutcome.validationErrors errs))
    ∧ (∀ (reg : Registry) (obj : Val) (sch : SchemaV),
        isContainer obj = false →
        validate reg obj sch
          = ValidateOutcome.assertionError
              "object to validate should be an object or an array")
    ∧ (∀ (reg : Registry) (obj : Val),
        isContainer obj = true →
        validate reg obj SchemaV.vnull
          = ValidateOutcome.assertionError "schema should be valid")
    ∧ (∀ (reg : Registry) (obj : Val) (v : Val),
        isContainer obj = true →
        validate reg obj (SchemaV.prim v)
          = ValidateOutcome.assertionError "schema should be valid")
    ∧ (∀ (reg : Registry) (obj : Val),
        isContainer obj = true →
        validate reg obj (SchemaV.decl []) = ValidateOutcome.ok) := by
  refine ⟨?_, ?_, ?_, ?_, ?_⟩
  · intro reg obj s errs hc hrun
    unfold validate
    rw [if_neg (by simp [hc])]
    show (match validateFn reg obj (flattenSchema s) [] with
      | Except.ok [] => ValidateOutcome.ok
      | Except.ok errs => ValidateOutcome.validationErrors errs
      | Except.error (Exn.item e) => ValidateOutcome.thrownItem e
      | Except.error (Exn.other m) => ValidateOutcome.otherError m) = _
    rw [hrun]
    cases errs with
    | nil => rfl
    | cons x t => rfl
  · intro reg obj sch hc
    unfold validate
    rw [if_pos hc]
  · intro reg obj hc
    unfold validate
    rw [if_neg (by simp [hc])]
  · intro reg obj v hc
    unfold validate
    rw [if_neg (by simp [hc])]
  · intro reg obj hc
    unfold validate
    rw [if_neg (by simp [hc])]
    show (match validateFn reg obj (flattenSchema []) [] with
      | Except.ok [] => ValidateOutcome.ok
      | Except.ok errs => ValidateOutcome.validationErrors errs
      | Except.error (Exn.item e) => ValidateOutcome.thrownItem e
      | Except.error (Exn.other m) => ValidateOutcome.otherError m) = _
    rw [show flattenSchema [] = [] from by unfold flattenSchema; rw [flattenAux.eq_def]]
    rw [validateFn_nil]

/-- Witness for C1 at a concrete container and schema. -/
theorem claim_C1_witness :
    isContainer (Val.obj []) = true
      ∧ validate emptyReg (Val.obj []) (SchemaV.decl []) = ValidateOutcome.ok :=
  ⟨rfl, claim_C1.2.2.2.2 emptyReg (Val.obj []) rfl⟩

/-- C2: the error list of a walk is exactly the concatenation of the
direct-entry contributions in flat-table iteration order followed by the
array-recursion contributions in flat-table order, each array entry
contributing its elements' errors in ascending index order (`List.enum`
inside `recurEntryErrs`); the walk being a pure function, any two runs on
the same inputs yield this same list. -/
theorem claim_C2 (reg : Registry) (obj : Val) (schema : List (String × FieldRule))
    (pre : List Seg) :
    validateFn reg obj schema pre = (do
      let d ← exceptMapList (directEntryErrs reg obj pre) (directPart schema)
      let r ← exceptMapList (recurEntryErrs reg obj pre) (recurPart schema)
      pure (d.flatten ++ r.flatten)) :=
  validateFn_decomp reg obj schema pre

/-- C5: predicates run in declaration order and the first failure
short-circuits: whatever validators follow the first failing one, the
composed result is exactly that failure (so at most one error item arises
from the chain). -/
theorem claim_C5 (pre post : List VFun) (v : VFun) (o : Val) (e : ErrorItem)
    (hpre : ∀ f ∈ pre, f o = Except.ok VRes.pass)
    (hv : v o = Except.ok (VRes.fail e)) :
    composeValidators (pre ++ v :: post) o = Except.ok (VRes.fail e) := by
  rw [composeValidators_eq_runList, runList_append_pass pre (v :: post) o hpre]
  exact runList_first_fail v post o e hv

/-- A sample error item for concrete witnesses. -/
def sampleErr : ErrorItem :=
  { message := "sample", path := EPath.null, value := Val.vnull,
    validatorKey := none, validatorName := none, validatorArgs := [] }

/-- Witness for C5 with one passing validator before and one after. -/
theorem claim_C5_witness :
    composeValidators
      ([fun _ => pure VRes.pass] ++ (fun _ => pure (VRes.fail sampleErr))
        :: [fun _ => pure VRes.pass]) Val.vnull
      = Except.ok (VRes.fail sampleErr) :=
  claim_C5 [fun _ => pure VRes.pass] [fun _ => pure VRes.pass]
    (fun _ => pure (VRes.fail sampleErr)) Val.vnull sampleErr
    (by
      intro f hf
      simp only [List.mem_singleton] at hf
      subst hf
      rfl)
    rfl

/-- C4: for a direct flat-table entry whose resolved value is null/absent,
a rule that does not allow null contributes exactly one `required` error
(no arguments) at that path, and a rule that allows null contributes no
error at all — whatever validators the rule declares, which are never
invoked. -/
theorem claim_C4 (reg : Registry) (obj : Val) (pre : List Seg) (key : String)
    (fs : FieldRule)
    (hkey : isRecurKey key = false)
    (hval : resolveDirect obj (mapKeyToPath key) = Val.vnull) :
    (fs.allowNull = false →
      validateFn reg obj [(key, fs)] pre
        = Except.ok [requiredError (mapKeyToPath key) Val.vnull])
    ∧ (fs.allowNull = true → validateFn reg obj [(key, fs)] pre = Except.ok []) := by
  have hdp : directPart [(key, fs)] = [(key, fs)] := by
    simp [directPart, List.filter_cons, hkey]
  have hrp : recurPart [(key, fs)] = [] := by
    simp [recurPart, List.filter_cons, hkey]
  constructor <;> intro hAN
  · rw [validateFn_decomp, hdp, hrp]
    have hde : directEntryErrs reg obj pre (key, fs)
        = Except.ok [requiredError (mapKeyToPath key) Val.vnull] := by
      unfold directEntryErrs
      show (if fs.allowNull = false
            ∧ isNullV (resolveDirect obj (mapKeyToPath key)) = true
          then (pure [requiredError (mapKeyToPath key)
              (resolveDirect obj (mapKeyToPath key))] : Except Exn (List ErrorItem))
          else if fs.allowNull = true
              ∧ isNullV (resolveDirect obj (mapKeyToPath key)) = true
          then pure []
          else do
            let r ← (match fs.validate with
              | some vmap => composeValidators (schemaToValidators reg
                  (mapPathToKey (pre ++ mapKeyToPath key) true) vmap)
              | none => fun _ => pure VRes.pass) (resolveDirect obj (mapKeyToPath key))
            match r with
            | VRes.fail err => pure [err]
            | VRes.pass => pure []) = _
      rw [hval, if_pos ⟨hAN, rfl⟩]
      rfl
    rw [show exceptMapList (directEntryErrs reg obj pre) [(key, fs)]
        = (do
          let y ← directEntryErrs reg obj pre (key, fs)
          (pure [y] : Except Exn (List (List ErrorItem)))) from rfl]
    rw [hde]
    rfl
  · rw [validateFn_decomp, hdp, hrp]
    have hde : directEntryErrs reg obj pre (key, fs) = Except.ok [] := by
      unfold directEntryErrs
      show (if fs.allowNull = false
            ∧ isNullV (resolveDirect obj (mapKeyToPath key)) = true
          then (pure [requiredError (mapKeyToPath key)
              (resolveDirect obj (mapKeyToPath key))] : Except Exn (List ErrorItem))
          else if fs.allowNull = true
              ∧ isNullV (resolveDirect obj (mapKeyToPath key)) = true
          then pure []
          else do
            let r ← (match fs.validate with
              | some vmap => composeValidators (schemaToValidators reg
                  (mapPathToKey (pre ++ mapKeyToPath key) true) vmap)
              | none => fun _ => pure VRes.pass) (resolveDirect obj (mapKeyToPath key))
            match r with
            | VRes.fail err => pure [err]
            | VRes.pass => pure []) = _
      rw [hval, if_neg (by simp [hAN]), if_pos ⟨hAN, rfl⟩]
      rfl
    rw [show exceptMapList (directEntryErrs reg obj pre) [(key, fs)]
        = (do
          let y ← directEntryErrs reg obj pre (key, fs)
          (pure [y] : Except Exn (List (List ErrorItem)))) from rfl]
    rw [hde]
    rfl

/-- Witness for C4: a missing non-nullable field with declared validators
gives exactly the `required` error; the same rule with `allowNull` gives
none. -/
theorem claim_C4_witness :
    isRecurKey "f" = false
    ∧ resolveDirect (Val.obj []) (mapKeyToPath "f") = Val.vnull
    ∧ validateFn emptyReg (Val.obj [])
        [("f", FieldRule.mk none false (some [("isString", ArgSpec.litTrue)]) [])] []
        = Except.ok [requiredError (mapKeyToPath "f") Val.vnull]
    ∧ validateFn emptyReg (Val.obj [])
        [("f", FieldRule.mk none true (some [("isString", ArgSpec.litTrue)]) [])] []
        = Except.ok [] :=
  ⟨by decide, rfl,
    (claim_C4 emptyReg (Val.obj []) [] "f"
      (FieldRule.mk none false (some [("isString", ArgSpec.litTrue)]) [])
      (by decide) rfl).1 rfl,
    (claim_C4 emptyReg (Val.obj []) [] "f"
      (FieldRule.mk none true (some [("isString", ArgSpec.litTrue)]) [])
      (by decide) rfl).2 rfl⟩

/-- C3 counterexample: for `{roles:[{}]}` against a nested array schema, the
single (required-field) error carries the raw level-local segment path
`[name]` — not the fully qualified dotted string `"roles.0.name"` the claim
demands. -/
theorem claim_C3_counterexample :
    validate emptyReg (Val.obj [("roles", Val.arr [Val.obj []])])
      (SchemaV.decl [("roles", FieldRule.mk (some "array") false none
        [("name", FieldRule.mk none false (some [("isString", ArgSpec.litTrue)]) [])])])
      = ValidateOutcome.validationErrors
          [{ message := "Validation required on name failed"
             path := EPath.segs [Seg.field "name"]
             value := Val.vnull
             validatorKey := some "required"
             validatorName := some "required"
             validatorArgs := [] }]
    ∧ EPath.segs [Seg.field "name"] ≠ EPath.s "roles.0.name" := by
  constructor
  · exact validateF_sound 9 _ _ _ _ _ rfl
  · decide

/-- C3 amended: when no predicate returns or throws a pre-built error item,
every error of a walk started with root prefix `pre` is either a
required-field error — which carries a raw level-local segment-sequence path
— or a declared-validator error whose path is the dotted, wildcard-stripped
rendering of `pre` extended down to the failing field (with `null` for the
degenerate empty rendering); moreover the rendered parts of such a path
never contain a residual `[]` marker. -/
theorem claim_C3_amended :
    (∀ (reg : Registry) (obj : Val) (schema : List (String × FieldRule))
      (pre : List Seg) (errs : List ErrorItem),
      PlainReg reg → PlainSchema schema →
      validateFn reg obj schema pre = Except.ok errs →
      ∀ e ∈ errs, RequiredShape e ∨ ComposedShape pre e)
    ∧ (∀ q : List Seg,
        "[]" ∉ (q.map (renderSeg q.length)).filter (fun s => !(true && s == "[]"))) := by
  constructor
  · intro reg obj schema pre errs hreg hsch hrun
    exact validateFn_err_shape (schemaMeasure schema) reg obj schema pre errs
      (Nat.le_refl _) hreg hsch hrun
  · intro q hmem
    have := List.of_mem_filter hmem
    simp at this

/-- Witness for C3 amended, on a schema with one missing required field. -/
theorem claim_C3_amended_witness :
    PlainReg emptyReg
    ∧ PlainSchema [("f", FieldRule.mk none false (some []) [])]
    ∧ validateFn emptyReg (Val.obj []) [("f", FieldRule.mk none false (some []) [])] []
        = Except.ok [requiredError (mapKeyToPath "f") Val.vnull]
    ∧ (∀ e ∈ [requiredError (mapKeyToPath "f") Val.vnull],
        RequiredShape e ∨ ComposedShape [] e) := by
  have h1 : PlainReg emptyReg := fun k p hp => Option.noConfusion hp
  have h2 : PlainSchema [("f", FieldRule.mk none false (some []) [])] := by
    intro x hx
    simp only [List.mem_singleton] at hx
    subst hx
    intro vmap hv k f hf
    simp only [FieldRule.validate, Option.some.injEq] at hv
    subst hv
    cases hf
  have h3 : validateFn emptyReg (Val.obj [])
      [("f", FieldRule.mk none false (some []) [])] []
      = Except.ok [requiredError (mapKeyToPath "f") Val.vnull] :=
    vfF_sound 9 _ _ _ _ _ rfl
  exact ⟨h1, h2, h3, claim_C3_amended.1 emptyReg (Val.obj [])
    [("f", FieldRule.mk none false (some []) [])] [] _ h1 h2 h3⟩

/-- C6 (divergence witness): a field declaring `type: 'string'` whose value
is the number `0` validates successfully — the flattener records no entry
for a rule without a `validate` mapping and no `type` predicate is ever
attached, so no error with validator key `type` can arise, contrary to the
claim and to the repository's own test expecting a `type`/`string` error
here. -/
theorem claim_C6_bug :
    validate emptyReg (Val.obj [("string", Val.int 0)])
      (SchemaV.decl [("string", FieldRule.mk (some "string") true none [])])
      = ValidateOutcome.ok :=
  validateF_sound 9 _ _ _ _ _ rfl

/-- C7 (divergence witness): an ad-hoc predicate that throws a pre-built
error item is not caught — `validate` propagates the raw item (aborting the
walk before the later field `l` is examined) instead of aggregating it into
a `ValidationErrors` list, contrary to the claim and to the repository's own
custom-validator test. -/
theorem claim_C7_bug :
    validate emptyReg
      (Val.obj [("k", Val.str "whatever"), ("l", Val.str "whatever bis")])
      (SchemaV.decl
        [("k", FieldRule.mk none false (some [("throw", ArgSpec.fn (fun o =>
          Except.error (Exn.item (mkErrorItem "wrong value" (EPath.segs [Seg.field "k"]) o
            (some "throw") (some "throw") []))))]) []),
         ("l", FieldRule.mk none false (some [("falsy", ArgSpec.fn (fun _ =>
          pure (RetV.val (Val.bool false))))]) [])])
      = ValidateOutcome.thrownItem (mkErrorItem "wrong value"
          (EPath.segs [Seg.field "k"]) (Val.str "whatever")
          (some "throw") (some "throw") []) :=
  validateF_sound 9 _ _ _ _ _ rfl

/-- C8 counterexample: the round trip fails on the empty internal path (it
renders as `""`, which parses back as one empty-named segment) and on a
literal `"$"` field segment (which parses back as a wildcard) — neither of
which is the claim's excluded sole-wildcard case. -/
theorem claim_C8_counterexample :
    mapKeyToPath (mapPathToKey [] false) ≠ ([] : List Seg)
    ∧ mapKeyToPath (mapPathToKey [Seg.field "$"] false) ≠ [Seg.field "$"] := by
  constructor <;> decide

/-- C8 amended: the codec round-trips on every non-empty internal path whose
segments are well-formed (dot-free field names distinct from the literal
markers, no concrete indices) — including the sole-wildcard path, which
renders as `$` and parses back to itself. -/
theorem claim_C8_amended (p : List Seg) (hne : p ≠ [])
    (hok : ∀ s ∈ p, SegOK s) :
    mapKeyToPath (mapPathToKey p false) = p :=
  mapKeyToPath_mapPathToKey p hne hok

/-- Witness for C8 amended on the path `a.[]` (and hence `$` for a sole
wildcard). -/
theorem claim_C8_amended_witness :
    ([Seg.field "a", Seg.wild] ≠ ([] : List Seg))
    ∧ mapKeyToPath (mapPathToKey [Seg.field "a", Seg.wild] false)
        = [Seg.field "a", Seg.wild]
    ∧ mapKeyToPath (mapPathToKey [Seg.wild] false) = [Seg.wild] := by
  have hok : ∀ s ∈ [Seg.field "a", Seg.wild], SegOK s := by
    intro s hs
    rcases List.mem_cons.mp hs with h | h
    · subst h
      exact ⟨by decide, by decide, by decide⟩
    · simp only [List.mem_singleton] at h
      subst h
      trivial
  have hok2 : ∀ s ∈ [Seg.wild], SegOK s := by
    intro s hs
    simp only [List.mem_singleton] at hs
    subst hs
    trivial
  exact ⟨by decide, claim_C8_amended [Seg.field "a", Seg.wild] (by decide) hok,
    claim_C8_amended [Seg.wild] (by decide) hok2⟩

/-- C9 counterexample: with `max = 0` supplied, the `!max` short-circuit
treats the bound as absent — `size(['a'], 0, 0)` is true in the code while
the claim's contract (`length ≤ max`) demands false. -/
theorem claim_C9_counterexample :
    size (Val.arr [Val.str "a"]) (Val.int 0) (Val.int 0) = true
    ∧ sizeSpec (Val.arr [Val.str "a"]) 0 (some 0) = false := by
  constructor <;> rfl

/-- C9 amended: `size(value, min, max)` is true iff `value` is an array
whose length is at least `min` and, when `max` is supplied and nonzero, at
most `max`; a zero (falsy) `max` behaves as if omitted, and omission leaves
the length unbounded above. Non-arrays always fail. -/
theorem claim_C9_amended :
    (∀ (l : List Val) (mi ma : Int),
      size (Val.arr l) (Val.int mi) (Val.int ma) = true
        ↔ (mi ≤ (l.length : Int) ∧ (ma = 0 ∨ (l.length : Int) ≤ ma)))
    ∧ (∀ (l : List Val) (mi : Int),
        size (Val.arr l) (Val.int mi) Val.vnull = true ↔ mi ≤ (l.length : Int))
    ∧ (∀ (o : Val) (mi ma : Val), (∀ l, o ≠ Val.arr l) → size o mi ma = false) := by
  refine ⟨?_, ?_, ?_⟩
  · intro l mi ma
    simp only [size, jsGE, jsLE, jsToNumber, truthy, Bool.and_eq_true, Bool.or_eq_true,
      Bool.not_eq_true', decide_eq_true_eq, bne_eq_false_iff_eq, bne_iff_ne]
  · intro l mi
    simp [size, jsGE, jsLE, jsToNumber, truthy]
  · intro o mi ma h
    cases o with
    | arr l => exact absurd rfl (h l)
    | vnull => rfl
    | bool b => rfl
    | int n => rfl
    | str s => rfl
    | obj fs => rfl
    | efn => rfl

/-- Witness for C9 amended: a one-element array against `[0, 2]` passes,
and a number is never a valid sequence. -/
theorem claim_C9_amended_witness :
    size (Val.arr [Val.str "a"]) (Val.int 0) (Val.int 2) = true
    ∧ size (Val.int 5) (Val.int 0) Val.vnull = false :=
  ⟨(claim_C9_amended.1 [Val.str "a"] 0 2).mpr (by constructor <;> decide),
   claim_C9_amended.2.2 (Val.int 5) (Val.int 0) Val.vnull
     (fun l h => Val.noConfusion h)⟩

/-- C10: the flattener records an entry only for rules carrying a `validate`
mapping, so a rule without one can never yield any error: every flat-table
rule has `validate` present; concretely, `validate({}, {f:{allowNull:false}})`
succeeds with no `required` error for `f`, and a container rule with a
nested schema but no own `validate` contributes only its children's entries
(no presence check on the container itself). -/
theorem claim_C10 :
    (∀ (schema : List (String × FieldRule)) (pre : List Seg),
      ∀ e ∈ flattenSchema schema pre, e.2.validate.isSome = true)
    ∧ validate emptyReg (Val.obj [])
        (SchemaV.decl [("f", FieldRule.mk none false none [])]) = ValidateOutcome.ok
    ∧ flattenSchema [("c", FieldRule.mk (some "object") false none
          [("x", FieldRule.mk none false (some []) [])])] []
        = [("c.x", FieldRule.mk none false (some []) [])] := by
  refine ⟨?_, ?_, ?_⟩
  · intro schema pre
    exact flattenAux_validate_isSome (sizeOf schema) schema pre []
      (Nat.le_refl _) (fun e he => absurd he (List.not_mem_nil e))
  · exact validateF_sound 9 _ _ _ _ _ rfl
  · show flattenAux [("c", FieldRule.mk (some "object") false none
        [("x", FieldRule.mk none false (some []) [])])] [] []
      = [("c.x", FieldRule.mk none false (some []) [])]
    exact flattenAuxF_sound 9 _ _ _ _ rfl

/-- Witness for C10: the recorded entry of the container example indeed
carries a `validate` mapping. -/
theorem claim_C10_witness :
    (("c.x", FieldRule.mk none false (some []) [])
        ∈ flattenSchema [("c", FieldRule.mk (some "object") false none
            [("x", FieldRule.mk none false (some []) [])])] [])
    ∧ (("c.x", FieldRule.mk none false (some []) [])).2.validate.isSome = true := by
  have hmem : (("c.x", FieldRule.mk none false (some []) [])
      ∈ flattenSchema [("c", FieldRule.mk (some "object") false none
          [("x", FieldRule.mk none false (some []) [])])] []) := by
    rw [show flattenSchema [("c", FieldRule.mk (some "object") false none
          [("x", FieldRule.mk none false (some []) [])])] []
        = [("c.x", FieldRule.mk none false (some []) [])] from claim_C10.2.2]
    exact List.mem_singleton.mpr rfl
  exact ⟨hmem, claim_C10.1 _ _ _ hmem⟩
